import Mathlib

/-!
Verification of the external sorting repository.

The repository contains two engines:

* `ExternalBalancedMergeSort` (file "Intercalação balanceada/algoritmo.py"):
  bounded-memory run generation onto two alternating tape files, followed by
  iterated binary balanced merge passes driven by `sort_file`.
* `ExternalMergeSort` (file "MergeSort Externo/algoritmo.py"): chunk splitting
  followed by a single k-way heap merge driven by `external_merge_sort`.

The embedding models integers as `Int`, tape files as optional lists of runs
(`none` models a file path whose file was never created: writing in mode ab or
wb creates it, opening it for reading raises FileNotFoundError), and the pickle
byte stream of a tape as a list of pickled objects.  Python `list.sort` is a
stable ascending comparison sort; it is modelled by `List.insertionSort`, which
has the same specification.  The `heapq` min-heap is modelled by its contract:
`heappop` removes and returns the smallest tuple, tuples compare
lexicographically.  Loops become structurally recursive functions; the two
loops whose iteration count is data dependent (the merge-pass loop of
`sort_file` and the heap loop of `merge_chunks`) take an explicit step budget
that the callers instantiate so that it never runs out on the executions the
theorems talk about.
-/

namespace ExtSort

/-! ## Pickle stream model (tape serialization layer)

`write_run_to_tape` pickles the run length followed by the values, and
`read_run_from_tape` loads the length and then that many values, returning
`None` when an `EOFError` escapes from anywhere inside the record read.  A
stream element is either a pickled integer or some other pickled object. -/

inductive Pk where
  | int (n : Int) : Pk
  | other : Pk
deriving DecidableEq, Repr

/-- `pickle.load` executed `n` times: returns the loaded objects and the rest
of the stream, or `none` when the stream ends early (`EOFError`). -/
def pickleLoads : Nat → List Pk → Option (List Pk × List Pk)
  | 0, s => some ([], s)
  | _ + 1, [] => none
  | n + 1, o :: s => (pickleLoads n s).map (fun p => (o :: p.1, p.2))

/-- Model of `ExternalBalancedMergeSort.read_run_from_tape` (lines 95-104).
The source wraps the whole record read, length prefix and values alike, in
`try ... except EOFError: return None`.  A clean end of stream gives `None`;
an `EOFError` in the middle of a record also gives `None`; a length prefix
that is not an integer makes `range(run_length)` raise `TypeError`, which
propagates (`.error`). -/
def read_run_from_tape : List Pk → Except Unit (Option (List Pk) × List Pk)
  | [] => .ok (none, [])
  | Pk.other :: _ => .error ()
  | Pk.int n :: s =>
    match pickleLoads n.toNat s with
    | none => .ok (none, [])
    | some (r, rest) => .ok (some r, rest)

/-- Model of `ExternalBalancedMergeSort.write_run_to_tape` (lines 86-93)
restricted to the bytes it appends: a pickled length followed by the pickled
values. -/
def serializeRun (r : List Int) : List Pk :=
  Pk.int (r.length : Int) :: r.map Pk.int

lemma pickleLoads_append (xs rest : List Pk) :
    pickleLoads xs.length (xs ++ rest) = some (xs, rest) := by
  induction xs with
  | nil => rfl
  | cons x xs ih => simp [pickleLoads, ih]

/-- Reading a well formed record returns exactly its values and leaves the
cursor at the next record. -/
lemma read_serializeRun (r : List Int) (rest : List Pk) :
    read_run_from_tape (serializeRun r ++ rest) = .ok (some (r.map Pk.int), rest) := by
  have h : pickleLoads r.length (r.map Pk.int ++ rest)
      = some (r.map Pk.int, rest) := by
    simpa using pickleLoads_append (r.map Pk.int) rest
  simp [serializeRun, read_run_from_tape, Int.toNat_natCast, h]

/-! ## Two-way merge (`ExternalBalancedMergeSort.merge_runs`, lines 152-169)

The source compares with `run1[i] <= run2[j]` and takes from the first run on
ties; when one side is exhausted the rest of the other side is appended
verbatim.  The comparison is abstracted as a boolean function so that the same
code can be run on values tagged with their run of origin, which is how the
stability part of the specification is stated. -/

def mergeBy (le : α → α → Bool) : List α → List α → List α
  | [], ys => ys
  | xs, [] => xs
  | x :: xs, y :: ys =>
    if le x y then x :: mergeBy le xs (y :: ys) else y :: mergeBy le (x :: xs) ys
termination_by xs ys => xs.length + ys.length

/-- `merge_runs` on integer runs, exactly the source comparison `<=`. -/
def merge_runs (a b : List Int) : List Int :=
  mergeBy (fun x y => decide (x ≤ y)) a b

lemma mergeBy_nil_left (le : α → α → Bool) (ys : List α) :
    mergeBy le [] ys = ys := by
  cases ys <;> simp [mergeBy]

lemma mergeBy_nil_right (le : α → α → Bool) (xs : List α) :
    mergeBy le xs [] = xs := by
  cases xs <;> simp [mergeBy]

lemma mergeBy_cons_cons (le : α → α → Bool) (x y : α) (xs ys : List α) :
    mergeBy le (x :: xs) (y :: ys)
      = if le x y then x :: mergeBy le xs (y :: ys) else y :: mergeBy le (x :: xs) ys := by
  simp [mergeBy]

/-- The merge output is a permutation of the two inputs concatenated. -/
lemma mergeBy_perm (le : α → α → Bool) :
    ∀ xs ys : List α, (mergeBy le xs ys).Perm (xs ++ ys) := by
  intro xs
  induction xs with
  | nil => intro ys; simp [mergeBy_nil_left]
  | cons x xs ihx =>
    intro ys
    induction ys with
    | nil => simp [mergeBy_nil_right]
    | cons y ys ihy =>
      rw [mergeBy_cons_cons]
      by_cases h : le x y = true
      · simpa [h] using (ihx (y :: ys)).cons x
      · simp only [h, if_false]
        refine (ihy.cons y).trans ?_
        exact (List.perm_middle).symm

lemma merge_runs_perm (a b : List Int) : (merge_runs a b).Perm (a ++ b) :=
  mergeBy_perm _ a b

lemma length_merge_runs (a b : List Int) :
    (merge_runs a b).length = a.length + b.length := by
  simpa using (merge_runs_perm a b).length_eq

/-- Merging two ascending runs yields an ascending run. -/
lemma merge_runs_sorted :
    ∀ a b : List Int, a.Sorted (· ≤ ·) → b.Sorted (· ≤ ·) →
      (merge_runs a b).Sorted (· ≤ ·) := by
  intro a
  induction a with
  | nil => intro b _ hb; simpa [merge_runs, mergeBy_nil_left] using hb
  | cons x xs ihx =>
    intro b ha hb
    induction b with
    | nil => simpa [merge_runs, mergeBy_nil_right] using ha
    | cons y ys ihy =>
      rw [merge_runs, mergeBy_cons_cons]
      by_cases h : x ≤ y
      · simp only [decide_eq_true_eq, h, if_true]
        rw [List.sorted_cons]
        constructor
        · intro z hz
          have hz2 : z ∈ xs ++ y :: ys := (mergeBy_perm _ xs (y :: ys)).mem_iff.mp hz
          rcases List.mem_append.mp hz2 with hz3 | hz3
          · exact (List.sorted_cons.mp ha).1 z hz3
          · rcases List.mem_cons.mp hz3 with rfl | hz4
            · exact h
            · exact le_trans h ((List.sorted_cons.mp hb).1 z hz4)
        · exact ihx (y :: ys) (List.sorted_cons.mp ha).2 hb
      · simp only [decide_eq_true_eq, h, if_false]
        have hyx : y ≤ x := le_of_not_le h
        rw [List.sorted_cons]
        constructor
        · intro z hz
          have hz2 : z ∈ (x :: xs) ++ ys :=
            (mergeBy_perm _ (x :: xs) ys).mem_iff.mp hz
          rcases List.mem_append.mp hz2 with hz3 | hz3
          · rcases List.mem_cons.mp hz3 with rfl | hz4
            · exact hyx
            · exact le_trans hyx ((List.sorted_cons.mp ha).1 z hz4)
          · exact (List.sorted_cons.mp hb).1 z hz3
        · exact ihy (List.sorted_cons.mp hb).2

/-! ### Stability of the two-way merge

To state stability, every value is tagged with the run it came from (tag 0 for
the first run, tag 1 for the second), and `merge_runs` is rerun on the tagged
values with the comparison still looking only at the values, exactly as the
source compares `run1[i] <= run2[j]`. -/

def tag0 (a : List Int) : List (Int × Nat) := a.map (fun v => (v, 0))

def tag1 (b : List Int) : List (Int × Nat) := b.map (fun v => (v, 1))

/-- The source comparison lifted to tagged values: compare the values only. -/
def tagLe (p q : Int × Nat) : Bool := decide (p.1 ≤ q.1)

/-- `merge_runs` rerun on origin-tagged values. -/
def mergeTag (a b : List Int) : List (Int × Nat) := mergeBy tagLe (tag0 a) (tag1 b)

@[simp] lemma tag0_nil : tag0 [] = [] := rfl

@[simp] lemma tag0_cons (x : Int) (a : List Int) :
    tag0 (x :: a) = (x, 0) :: tag0 a := rfl

@[simp] lemma tag1_nil : tag1 [] = [] := rfl

@[simp] lemma tag1_cons (y : Int) (b : List Int) :
    tag1 (y :: b) = (y, 1) :: tag1 b := rfl

@[simp] lemma map_fst_tag0 (a : List Int) : (tag0 a).map Prod.fst = a := by
  induction a with
  | nil => rfl
  | cons x a ih => simp [ih]

@[simp] lemma map_fst_tag1 (b : List Int) : (tag1 b).map Prod.fst = b := by
  induction b with
  | nil => rfl
  | cons y b ih => simp [ih]

/-- Forgetting the tags recovers the untagged merge. -/
lemma mergeTag_map_fst : ∀ a b : List Int,
    (mergeTag a b).map Prod.fst = merge_runs a b := by
  intro a
  induction a with
  | nil =>
    intro b
    rw [mergeTag, tag0_nil, mergeBy_nil_left, merge_runs, mergeBy_nil_left,
      map_fst_tag1]
  | cons x a iha =>
    intro b
    induction b with
    | nil =>
      rw [mergeTag, tag1_nil, mergeBy_nil_right, merge_runs, mergeBy_nil_right,
        map_fst_tag0]
    | cons y b ihb =>
      have hxy : tagLe (x, 0) (y, 1) = decide (x ≤ y) := rfl
      rw [mergeTag, tag0_cons, tag1_cons, mergeBy_cons_cons, hxy,
        merge_runs, mergeBy_cons_cons]
      by_cases h : x ≤ y
      · rw [if_pos (by simpa using h), if_pos (by simpa using h), List.map_cons]
        exact congrArg (x :: ·) (iha (y :: b))
      · rw [if_neg (by simpa using h), if_neg (by simpa using h), List.map_cons]
        exact congrArg (y :: ·) ihb

/-- The tagged merge keeps exactly the first run, in its original order, as
the subsequence of tag-0 entries. -/
lemma mergeBy_filter_tag0 :
    ∀ xs ys : List (Int × Nat), (∀ p ∈ xs, p.2 = 0) → (∀ p ∈ ys, p.2 = 1) →
      (mergeBy tagLe xs ys).filter (fun p => p.2 == 0) = xs := by
  intro xs
  induction xs with
  | nil =>
    intro ys _ hy
    rw [mergeBy_nil_left]
    exact List.filter_eq_nil_iff.mpr (fun p hp => by simp [hy p hp])
  | cons x xs ihx =>
    intro ys hx hy
    induction ys with
    | nil =>
      rw [mergeBy_nil_right]
      exact List.filter_eq_self.mpr (fun p hp => by simp [hx p hp])
    | cons y ys ihy =>
      rw [mergeBy_cons_cons]
      by_cases h : tagLe x y = true
      · rw [if_pos h, List.filter_cons_of_pos (by simp [hx x (List.mem_cons_self x xs)])]
        exact congrArg (x :: ·)
          (ihx (y :: ys) (fun p hp => hx p (List.mem_cons_of_mem x hp)) hy)
      · rw [if_neg h, List.filter_cons_of_neg (by simp [hy y (List.mem_cons_self y ys)])]
        exact ihy (fun p hp => hy p (List.mem_cons_of_mem y hp))

/-- The tagged merge keeps exactly the second run, in its original order, as
the subsequence of tag-1 entries. -/
lemma mergeBy_filter_tag1 :
    ∀ xs ys : List (Int × Nat), (∀ p ∈ xs, p.2 = 0) → (∀ p ∈ ys, p.2 = 1) →
      (mergeBy tagLe xs ys).filter (fun p => p.2 == 1) = ys := by
  intro xs
  induction xs with
  | nil =>
    intro ys _ hy
    rw [mergeBy_nil_left]
    exact List.filter_eq_self.mpr (fun p hp => by simp [hy p hp])
  | cons x xs ihx =>
    intro ys hx hy
    induction ys with
    | nil =>
      rw [mergeBy_nil_right]
      exact List.filter_eq_nil_iff.mpr (fun p hp => by simp [hx p hp])
    | cons y ys ihy =>
      rw [mergeBy_cons_cons]
      by_cases h : tagLe x y = true
      · rw [if_pos h, List.filter_cons_of_neg (by simp [hx x (List.mem_cons_self x xs)])]
        exact ihx (y :: ys) (fun p hp => hx p (List.mem_cons_of_mem x hp)) hy
      · rw [if_neg h, List.filter_cons_of_pos (by simp [hy y (List.mem_cons_self y ys)])]
        exact congrArg (y :: ·)
          (ihy (fun p hp => hy p (List.mem_cons_of_mem y hp)))

/-- In the tagged merge of two ascending runs, values are ascending and on a
tie the tag-0 (first run) copy comes before the tag-1 copy. -/
lemma mergeTag_pairwise :
    ∀ xs ys : List (Int × Nat),
      xs.Pairwise (fun p q => p.1 ≤ q.1) → ys.Pairwise (fun p q => p.1 ≤ q.1) →
      (∀ p ∈ xs, p.2 = 0) → (∀ p ∈ ys, p.2 = 1) →
      (mergeBy tagLe xs ys).Pairwise
        (fun p q => p.1 ≤ q.1 ∧ (p.1 = q.1 → p.2 ≤ q.2)) := by
  intro xs
  induction xs with
  | nil =>
    intro ys _ hys _ hty
    rw [mergeBy_nil_left]
    refine hys.imp_of_mem ?_
    intro p q hp hq h
    exact ⟨h, fun _ => by rw [hty p hp, hty q hq]⟩
  | cons x xs ihx =>
    intro ys hxs hys htx hty
    induction ys with
    | nil =>
      rw [mergeBy_nil_right]
      refine hxs.imp_of_mem ?_
      intro p q hp hq h
      exact ⟨h, fun _ => by rw [htx p hp, htx q hq]⟩
    | cons y ys ihy =>
      rw [mergeBy_cons_cons]
      by_cases h : tagLe x y = true
      · have hxy : x.1 ≤ y.1 := by simpa [tagLe] using h
        rw [if_pos h, List.pairwise_cons]
        constructor
        · intro z hz
          have hz2 : z ∈ xs ++ y :: ys := (mergeBy_perm _ xs (y :: ys)).mem_iff.mp hz
          rcases List.mem_append.mp hz2 with hz3 | hz3
          · refine ⟨(List.pairwise_cons.mp hxs).1 z hz3, fun _ => ?_⟩
            rw [htx x (List.mem_cons_self x xs), htx z (List.mem_cons_of_mem x hz3)]
          · rcases List.mem_cons.mp hz3 with rfl | hz4
            · refine ⟨hxy, fun _ => ?_⟩
              rw [htx x (List.mem_cons_self x xs), hty z (List.mem_cons_self z ys)]
              exact Nat.zero_le 1
            · refine ⟨le_trans hxy ((List.pairwise_cons.mp hys).1 z hz4), fun _ => ?_⟩
              rw [htx x (List.mem_cons_self x xs), hty z (List.mem_cons_of_mem y hz4)]
              exact Nat.zero_le 1
        · exact ihx (y :: ys) (List.pairwise_cons.mp hxs).2 hys
            (fun p hp => htx p (List.mem_cons_of_mem x hp)) hty
      · have hyx : y.1 < x.1 := by
          have := (not_iff_not.mpr (decide_eq_true_iff (p := x.1 ≤ y.1))).mp
            (by simpa [tagLe] using h)
          omega
        rw [if_neg h, List.pairwise_cons]
        constructor
        · intro z hz
          have hz2 : z ∈ (x :: xs) ++ ys :=
            (mergeBy_perm _ (x :: xs) ys).mem_iff.mp hz
          rcases List.mem_append.mp hz2 with hz3 | hz3
          · rcases List.mem_cons.mp hz3 with rfl | hz4
            · exact ⟨le_of_lt hyx, fun heq => absurd heq (by omega)⟩
            · have hxz : x.1 ≤ z.1 := (List.pairwise_cons.mp hxs).1 z hz4
              exact ⟨le_trans (le_of_lt hyx) hxz, fun heq => absurd heq (by omega)⟩
          · refine ⟨(List.pairwise_cons.mp hys).1 z hz3, fun _ => ?_⟩
            rw [hty y (List.mem_cons_self y ys), hty z (List.mem_cons_of_mem y hz3)]
        · exact ihy (List.pairwise_cons.mp hys).2
            (fun p hp => hty p (List.mem_cons_of_mem y hp))

/-! ## Tape files and round-robin run distribution

A tape is a file path; the file holds a list of runs once created.  `none`
models a path whose file does not exist yet: `create_tape` only builds the
name, the file itself appears at the first write (both modes wb and ab create
it), and `open(path, rb)` on `none` raises `FileNotFoundError`. -/

def optOfList : List α → Option (List α)
  | [] => none
  | l => some l

@[simp] lemma optOfList_nil : optOfList ([] : List α) = none := rfl

lemma optOfList_of_ne_nil {l : List α} (h : l ≠ []) : optOfList l = some l := by
  cases l with
  | nil => exact absurd rfl h
  | cons x xs => rfl

@[simp] lemma getD_optOfList (l : List α) : (optOfList l).getD [] = l := by
  cases l <;> rfl

/-- The pair of output tapes of a phase together with the write-alternation
state (`current_tape` / `current_output` and the run counter). -/
structure Distributor where
  tapeA : Option (List (List Int))
  tapeB : Option (List (List Int))
  current : Nat
  count : Nat
deriving DecidableEq, Repr

def dInit : Distributor := ⟨none, none, 0, 0⟩

/-- Model of `write_run_to_tape` (lines 86-93) at the run level: mode ab
appends to the file, creating it when missing; mode wb truncates or creates. -/
def writeTape (t : Option (List (List Int))) (run : List Int) (app : Bool) :
    Option (List (List Int)) :=
  if app then some (t.getD [] ++ [run]) else some [run]

/-- The run-write block that appears verbatim in
`create_initial_runs_from_file` (lines 129-132 and 144-147) and in
`merge_phase` (lines 204-207): select the target tape by `current`, compute
`append_mode = count > 0 and current == (count % 2)`, write, and bump the run
counter. -/
def pushRun (d : Distributor) (run : List Int) : Distributor :=
  let app : Bool := decide (0 < d.count) && decide (d.current = d.count % 2)
  if d.current = 0 then
    ⟨writeTape d.tapeA run app, d.tapeB, d.current, d.count + 1⟩
  else
    ⟨d.tapeA, writeTape d.tapeB run app, d.current, d.count + 1⟩

/-- `pushRun` followed by the alternation `current = 1 - current`, exactly the
in-loop flush blocks of both phases.  (The flush of the last partial buffer,
lines 142-147, writes without alternating; it is modelled by `pushRun`.) -/
def emit (d : Distributor) (run : List Int) : Distributor :=
  ⟨(pushRun d run).tapeA, (pushRun d run).tapeB, 1 - d.current, (pushRun d run).count⟩

/-- The runs at even write positions: they land on the first tape. -/
def evens : List α → List α
  | [] => []
  | [x] => [x]
  | x :: _ :: xs => x :: evens xs

/-- The runs at odd write positions: they land on the second tape. -/
def odds (l : List α) : List α := evens (l.drop 1)

/-- The distributor state after the runs `R` have been written in order with
alternation: the first tape holds the even-position runs, the second the
odd-position runs, each in write order. -/
def mkDist (R : List (List Int)) : Distributor :=
  ⟨optOfList (evens R), optOfList (odds R), R.length % 2, R.length⟩

theorem twoStepInduction {P : List α → Prop} (h0 : P []) (h1 : ∀ x, P [x])
    (h2 : ∀ x y xs, P xs → P (x :: y :: xs)) : ∀ l, P l
  | [] => h0
  | [x] => h1 x
  | x :: y :: xs => h2 x y xs (twoStepInduction h0 h1 h2 xs)

@[simp] lemma evens_nil : evens ([] : List α) = [] := rfl

@[simp] lemma evens_singleton (x : α) : evens [x] = [x] := rfl

@[simp] lemma evens_cons_cons (x y : α) (xs : List α) :
    evens (x :: y :: xs) = x :: evens xs := rfl

@[simp] lemma odds_nil : odds ([] : List α) = [] := rfl

@[simp] lemma odds_singleton (x : α) : odds [x] = [] := rfl

@[simp] lemma odds_cons_cons (x y : α) (xs : List α) :
    odds (x :: y :: xs) = y :: odds xs := by
  cases xs <;> rfl

lemma evens_ne_nil {l : List α} (h : l ≠ []) : evens l ≠ [] := by
  cases l with
  | nil => exact absurd rfl h
  | cons x xs => cases xs <;> simp

lemma length_evens : ∀ l : List α, (evens l).length = (l.length + 1) / 2 := by
  intro l
  induction l using twoStepInduction with
  | h0 => simp
  | h1 x => simp
  | h2 x y xs ih => simp [ih]; omega

lemma length_odds : ∀ l : List α, (odds l).length = l.length / 2 := by
  intro l
  induction l using twoStepInduction with
  | h0 => simp
  | h1 x => simp
  | h2 x y xs ih => simp [ih]; omega

lemma mem_evens {l : List α} {z : α} (h : z ∈ evens l) : z ∈ l := by
  induction l using twoStepInduction with
  | h0 => simpa using h
  | h1 x => simpa using h
  | h2 x y xs ih =>
    rcases List.mem_cons.mp (by simpa using h) with rfl | h2
    · exact List.mem_cons_self z _
    · exact List.mem_cons_of_mem x (List.mem_cons_of_mem y (ih h2))

lemma mem_odds {l : List α} {z : α} (h : z ∈ odds l) : z ∈ l := by
  induction l using twoStepInduction with
  | h0 => simpa using h
  | h1 x => simpa using h
  | h2 x y xs ih =>
    rcases List.mem_cons.mp (by simpa using h) with rfl | h2
    · exact List.mem_cons_of_mem x (List.mem_cons_self z _)
    · exact List.mem_cons_of_mem x (List.mem_cons_of_mem y (ih h2))

lemma evens_append_even (r : α) :
    ∀ l : List α, l.length % 2 = 0 → evens (l ++ [r]) = evens l ++ [r] := by
  intro l
  induction l using twoStepInduction with
  | h0 => intro _; rfl
  | h1 x => intro h; simp at h
  | h2 x y xs ih => intro h; simp at h ⊢; exact ih (by omega)

lemma odds_append_even (r : α) :
    ∀ l : List α, l.length % 2 = 0 → odds (l ++ [r]) = odds l := by
  intro l
  induction l using twoStepInduction with
  | h0 => intro _; rfl
  | h1 x => intro h; simp at h
  | h2 x y xs ih => intro h; simp at h ⊢; exact ih (by omega)

lemma evens_append_odd (r : α) :
    ∀ l : List α, l.length % 2 = 1 → evens (l ++ [r]) = evens l := by
  intro l
  induction l using twoStepInduction with
  | h0 => intro h; simp at h
  | h1 x => intro _; rfl
  | h2 x y xs ih => intro h; simp at h ⊢; exact ih (by omega)

lemma odds_append_odd (r : α) :
    ∀ l : List α, l.length % 2 = 1 → odds (l ++ [r]) = odds l ++ [r] := by
  intro l
  induction l using twoStepInduction with
  | h0 => intro h; simp at h
  | h1 x => intro _; rfl
  | h2 x y xs ih => intro h; simp at h ⊢; exact ih (by omega)

lemma evens_flatten_append_odds_flatten_perm :
    ∀ l : List (List Int), ((evens l).flatten ++ (odds l).flatten).Perm l.flatten := by
  intro l
  induction l using twoStepInduction with
  | h0 => simp
  | h1 x => simp
  | h2 x y xs ih =>
    simp only [evens_cons_cons, odds_cons_cons, List.flatten_cons]
    have h1 : (x ++ (evens xs).flatten) ++ (y ++ (odds xs).flatten)
        = x ++ (((evens xs).flatten ++ y) ++ (odds xs).flatten) := by
      simp [List.append_assoc]
    rw [h1]
    refine List.Perm.append_left x ?_
    refine (List.perm_append_comm.append_right ((odds xs).flatten)).trans ?_
    rw [List.append_assoc]
    exact List.Perm.append_left y ih

/-- The central round-robin invariant: writing one more run through the
shared write block turns the state for `R` into the state for `R ++ [run]`.
In particular the write appends, it never overwrites a run already on the
target tape. -/
lemma pushRun_mkDist (R : List (List Int)) (r : List Int) :
    pushRun (mkDist R) r
      = ⟨optOfList (evens (R ++ [r])), optOfList (odds (R ++ [r])),
          R.length % 2, R.length + 1⟩ := by
  rcases Nat.mod_two_eq_zero_or_one R.length with h | h
  · by_cases hR : R = []
    · subst hR
      simp [pushRun, mkDist, writeTape, optOfList]
    · have hlen : 0 < R.length := List.length_pos.mpr hR
      have hne : evens R ≠ [] := evens_ne_nil hR
      simp [pushRun, mkDist, writeTape, h, hlen, evens_append_even r R h,
        odds_append_even r R h, optOfList_of_ne_nil hne,
        optOfList_of_ne_nil (show evens R ++ [r] ≠ [] by simp)]
  · have hlen : 0 < R.length := by omega
    simp [pushRun, mkDist, writeTape, h, hlen, evens_append_odd r R h,
      odds_append_odd r R h,
      optOfList_of_ne_nil (show odds R ++ [r] ≠ [] by simp)]

lemma emit_mkDist (R : List (List Int)) (r : List Int) :
    emit (mkDist R) r = mkDist (R ++ [r]) := by
  have h1 : (mkDist R).current = R.length % 2 := rfl
  simp only [emit, pushRun_mkDist, h1]
  simp [mkDist, Distributor.mk.injEq, List.length_append]
  all_goals omega

lemma dInit_eq : dInit = mkDist [] := rfl

lemma foldl_emit (L R : List (List Int)) :
    L.foldl emit (mkDist R) = mkDist (R ++ L) := by
  induction L generalizing R with
  | nil => simp
  | cons r L ih =>
    rw [List.foldl_cons, emit_mkDist, ih]
    simp

/-! ## Run generation (`create_initial_runs_from_file`, lines 106-150) -/

/-- Python `list.sort`: a stable ascending comparison sort, modelled by
insertion sort, which has the same specification. -/
def pysort (l : List Int) : List Int := l.insertionSort (· ≤ ·)

lemma pysort_sorted (l : List Int) : (pysort l).Sorted (· ≤ ·) :=
  List.sorted_insertionSort _ l

lemma pysort_perm (l : List Int) : (pysort l).Perm l :=
  List.perm_insertionSort _ l

lemma pysort_ne_nil {l : List Int} (h : l ≠ []) : pysort l ≠ [] := by
  intro h2
  exact h (List.eq_nil_of_length_eq_zero (by
    have := (pysort_perm l).length_eq
    rw [h2] at this
    simpa using this.symm))

/-- The generation-phase state: the two tapes with the alternation counters,
plus the in-memory buffer. -/
structure GenState where
  dist : Distributor
  buffer : List Int
deriving DecidableEq, Repr

def genInit : GenState := ⟨dInit, []⟩

/-- One iteration of the read loop (lines 122-139): append the value to the
buffer; when the buffer reaches `memory_limit`, sort it and flush it as a run
through the shared write block, alternating tapes. -/
def genStep (m : Nat) (s : GenState) (x : Int) : GenState :=
  let buf := s.buffer ++ [x]
  if m ≤ buf.length then ⟨emit s.dist (pysort buf), []⟩ else ⟨s.dist, buf⟩

/-- The flush of the final partial buffer (lines 141-147): the source writes
the sorted buffer through the same write block but does not alternate the
tape afterwards, hence `pushRun` rather than `emit`. -/
def finalFlush (s : GenState) : GenState :=
  if s.buffer.isEmpty then s else ⟨pushRun s.dist (pysort s.buffer), []⟩

/-- Model of `create_initial_runs_from_file` (lines 106-150): fold the read
loop over the input, then flush the final partial buffer. -/
def create_initial_runs (m : Nat) (input : List Int) : GenState :=
  finalFlush (input.foldl (genStep m) genInit)

/-- The blocks of exactly `memory_limit` consecutive elements: the flushes
performed inside the read loop. -/
def fullChunksOf (m : Nat) (l : List Int) : List (List Int) :=
  if h : m = 0 ∨ l.length < m then [] else l.take m :: fullChunksOf m (l.drop m)
termination_by l.length
decreasing_by
  simp only [List.length_drop]
  omega

/-- The trailing partial block: the buffer contents left after the read loop. -/
def remOf (m : Nat) (l : List Int) : List Int :=
  if h : m = 0 ∨ l.length < m then l else remOf m (l.drop m)
termination_by l.length
decreasing_by
  simp only [List.length_drop]
  omega

lemma fullChunksOf_of_lt {m : Nat} {l : List Int} (h : l.length < m) :
    fullChunksOf m l = [] := by
  rw [fullChunksOf, dif_pos (Or.inr h)]

lemma remOf_of_lt {m : Nat} {l : List Int} (h : l.length < m) : remOf m l = l := by
  rw [remOf, dif_pos (Or.inr h)]

lemma fullChunksOf_step {m : Nat} {l : List Int} (hm : 1 ≤ m) (h : m ≤ l.length) :
    fullChunksOf m l = l.take m :: fullChunksOf m (l.drop m) := by
  rw [fullChunksOf, dif_neg (by omega)]

lemma remOf_step {m : Nat} {l : List Int} (hm : 1 ≤ m) (h : m ≤ l.length) :
    remOf m l = remOf m (l.drop m) := by
  rw [remOf, dif_neg (by omega)]

lemma length_remOf_lt {m : Nat} (hm : 1 ≤ m) :
    ∀ l : List Int, (remOf m l).length < m := by
  intro l
  induction l using remOf.induct m with
  | case1 l h => rw [remOf, dif_pos h]; omega
  | case2 l h ih => rw [remOf, dif_neg h]; exact ih

def mkGen (R : List (List Int)) (b : List Int) : GenState := ⟨mkDist R, b⟩

/-- The read-loop invariant: after any sequence of input values, the state is
exactly the distributor state for the runs flushed so far (the sorted full
blocks, alternating tapes in flush order) together with the unflushed partial
block in the buffer. -/
lemma foldl_genStep (m : Nat) (hm : 1 ≤ m) :
    ∀ (input : List Int) (R : List (List Int)) (b : List Int), b.length < m →
      input.foldl (genStep m) (mkGen R b)
        = mkGen (R ++ (fullChunksOf m (b ++ input)).map pysort)
            (remOf m (b ++ input)) := by
  intro input
  induction input with
  | nil =>
    intro R b hb
    rw [List.foldl_nil, List.append_nil, fullChunksOf_of_lt hb, remOf_of_lt hb]
    simp
  | cons x xs ih =>
    intro R b hb
    rw [List.foldl_cons]
    have hsplit : b ++ x :: xs = (b ++ [x]) ++ xs := by simp
    by_cases hfull : m ≤ (b ++ [x]).length
    · have hlen : (b ++ [x]).length = m := by
        simp only [List.length_append, List.length_singleton] at hfull ⊢
        omega
      have hstep : genStep m (mkGen R b) x
          = mkGen (R ++ [pysort (b ++ [x])]) [] := by
        simp only [genStep, mkGen]
        rw [if_pos hfull, emit_mkDist]
      rw [hstep, ih (R ++ [pysort (b ++ [x])]) [] (by simp; omega)]
      rw [List.nil_append, hsplit]
      have hle : m ≤ ((b ++ [x]) ++ xs).length := by
        simp only [List.length_append] at hlen ⊢
        omega
      rw [fullChunksOf_step hm hle, remOf_step hm hle,
        List.take_left' hlen, List.drop_left' hlen]
      simp
    · have hblen : (b ++ [x]).length < m := by omega
      have hstep : genStep m (mkGen R b) x = mkGen R (b ++ [x]) := by
        simp only [genStep, mkGen]
        rw [if_neg hfull]
      rw [hstep, ih R (b ++ [x]) hblen, hsplit]

/-! ## The k-way chunk splitter (`split_and_sort_chunks`, lines 26-64) -/

/-- Model of `ExternalMergeSort.split_and_sort_chunks`: read up to
`chunk_size` values, stop when a read yields no values, sort each chunk in
memory.  The same split also describes the runs of the balanced engine. -/
def split_and_sort_chunks (c : Nat) (l : List Int) : List (List Int) :=
  if h : l.take c = [] then []
  else pysort (l.take c) :: split_and_sort_chunks c (l.drop c)
termination_by l.length
decreasing_by
  have h2 : c ≠ 0 ∧ l ≠ [] := by
    constructor
    · rintro rfl; simp at h
    · rintro rfl; simp at h
  have h3 : 0 < l.length := List.length_pos.mpr h2.2
  have h4 : 0 < c := Nat.pos_of_ne_zero h2.1
  simp only [List.length_drop]
  omega

/-- The splitter produces exactly the sorted full blocks followed, when the
input does not divide evenly, by the sorted trailing partial block. -/
lemma split_eq_fulls_rem (c : Nat) (hc : 1 ≤ c) :
    ∀ l : List Int,
      split_and_sort_chunks c l
        = (fullChunksOf c l).map pysort
          ++ (if remOf c l = [] then [] else [pysort (remOf c l)]) := by
  intro l
  induction l using split_and_sort_chunks.induct c with
  | case1 l h =>
    have h2 : l = [] := by
      rcases List.take_eq_nil_iff.mp h with h3 | h3
      · omega
      · exact h3
    subst h2
    rw [split_and_sort_chunks, dif_pos (by simp)]
    rw [fullChunksOf_of_lt (by simpa using hc), remOf_of_lt (by simpa using hc)]
    simp
  | case2 l h ih =>
    have h2 : l ≠ [] := by rintro rfl; simp at h
    rw [split_and_sort_chunks, dif_neg h]
    by_cases hlen : l.length < c
    · have ht : l.take c = l := List.take_of_length_le (le_of_lt hlen)
      have hd : l.drop c = [] := List.drop_eq_nil_of_le (le_of_lt hlen)
      rw [ht, hd]
      rw [split_and_sort_chunks, dif_pos (by simp)]
      rw [fullChunksOf_of_lt hlen, remOf_of_lt hlen]
      simp [h2]
    · have hle : c ≤ l.length := by omega
      rw [fullChunksOf_step hc hle, remOf_step hc hle, ih]
      simp

lemma split_and_sort_chunks_sorted (c : Nat) :
    ∀ l : List Int, ∀ r ∈ split_and_sort_chunks c l, r.Sorted (· ≤ ·) := by
  intro l
  induction l using split_and_sort_chunks.induct c with
  | case1 l h =>
    rw [split_and_sort_chunks, dif_pos h]
    intro r hr
    simp at hr
  | case2 l h ih =>
    rw [split_and_sort_chunks, dif_neg h]
    intro r hr
    rcases List.mem_cons.mp hr with rfl | hr2
    · exact pysort_sorted _
    · exact ih r hr2

lemma split_and_sort_chunks_ne_nil (c : Nat) :
    ∀ l : List Int, ∀ r ∈ split_and_sort_chunks c l, r ≠ [] := by
  intro l
  induction l using split_and_sort_chunks.induct c with
  | case1 l h =>
    rw [split_and_sort_chunks, dif_pos h]
    intro r hr
    simp at hr
  | case2 l h ih =>
    rw [split_and_sort_chunks, dif_neg h]
    intro r hr
    rcases List.mem_cons.mp hr with rfl | hr2
    · exact pysort_ne_nil h
    · exact ih r hr2

lemma split_and_sort_chunks_flatten_perm (c : Nat) (hc : 1 ≤ c) :
    ∀ l : List Int, (split_and_sort_chunks c l).flatten.Perm l := by
  intro l
  induction l using split_and_sort_chunks.induct c with
  | case1 l h =>
    rw [split_and_sort_chunks, dif_pos h]
    have h2 : l = [] := by
      rcases List.take_eq_nil_iff.mp h with h3 | h3
      · omega
      · exact h3
    subst h2
    simp
  | case2 l h ih =>
    rw [split_and_sort_chunks, dif_neg h]
    rw [List.flatten_cons]
    refine ((pysort_perm (l.take c)).append ih).trans ?_
    rw [List.take_append_drop]

lemma split_and_sort_chunks_ne_nil_self (c : Nat) (hc : 1 ≤ c) {l : List Int}
    (hl : l ≠ []) : split_and_sort_chunks c l ≠ [] := by
  rw [split_and_sort_chunks, dif_neg]
  · simp
  · intro h
    rcases List.take_eq_nil_iff.mp h with h2 | h2
    · omega
    · exact hl h2

lemma split_length_ge_two (c : Nat) (hc : 1 ≤ c) (l : List Int)
    (h : c < l.length) : 2 ≤ (split_and_sort_chunks c l).length := by
  have hl : l ≠ [] := by
    intro h2
    subst h2
    simp at h
  rw [split_and_sort_chunks, dif_neg]
  · have hd : l.drop c ≠ [] := by
      intro h2
      have := congrArg List.length h2
      simp only [List.length_drop, List.length_nil] at this
      omega
    have h1 : 1 ≤ (split_and_sort_chunks c (l.drop c)).length :=
      List.length_pos.mpr (split_and_sort_chunks_ne_nil_self c hc hd)
    simp only [List.length_cons]
    omega
  · intro h2
    rcases List.take_eq_nil_iff.mp h2 with h3 | h3
    · omega
    · exact hl h3

@[simp] lemma mkDist_tapeA (R : List (List Int)) :
    (mkDist R).tapeA = optOfList (evens R) := rfl

@[simp] lemma mkDist_tapeB (R : List (List Int)) :
    (mkDist R).tapeB = optOfList (odds R) := rfl

@[simp] lemma mkDist_count (R : List (List Int)) :
    (mkDist R).count = R.length := rfl

@[simp] lemma mkGen_dist (R : List (List Int)) (b : List Int) :
    (mkGen R b).dist = mkDist R := rfl

@[simp] lemma mkGen_buffer (R : List (List Int)) (b : List Int) :
    (mkGen R b).buffer = b := rfl

/-- The state produced by `create_initial_runs_from_file`: the sorted blocks
of the input distributed alternately over the two tapes in flush order, with
run counter equal to the number of runs and an empty buffer. -/
lemma create_initial_runs_spec (m : Nat) (hm : 1 ≤ m) (input : List Int) :
    (create_initial_runs m input).dist.tapeA
        = optOfList (evens (split_and_sort_chunks m input)) ∧
    (create_initial_runs m input).dist.tapeB
        = optOfList (odds (split_and_sort_chunks m input)) ∧
    (create_initial_runs m input).dist.count
        = (split_and_sort_chunks m input).length ∧
    (create_initial_runs m input).buffer = [] := by
  have hfold := foldl_genStep m hm input [] [] (by simpa using hm)
  rw [create_initial_runs]
  have hgi : genInit = mkGen [] [] := rfl
  rw [hgi, hfold]
  simp only [List.nil_append]
  rw [split_eq_fulls_rem m hm input]
  by_cases hrem : remOf m input = []
  · rw [finalFlush, if_pos (by simp [hrem])]
    simp [hrem]
  · rw [finalFlush,
      if_neg (by simp [List.isEmpty_iff]; exact hrem)]
    simp only [mkGen_dist, mkGen_buffer, pushRun_mkDist, hrem, if_neg hrem]
    simp [List.length_append]

/-! ## Balanced merge phase (`merge_phase`, lines 171-217) -/

/-- The runs written in one pass, in creation order: the source reads the next
run from every input tape at each iteration; a single obtained run is passed
through unchanged, two obtained runs are merged. -/
def mergePairs : List (List Int) → List (List Int) → List (List Int)
  | [], [] => []
  | a :: as, [] => a :: mergePairs as []
  | [], b :: bs => b :: mergePairs [] bs
  | a :: as, b :: bs => merge_runs a b :: mergePairs as bs

/-- The loop of `merge_phase` (lines 186-210): read one run from every open
input tape, stop when none is obtained, otherwise write the merged (or passed
through) run through the shared write block and alternate.  `fuel` bounds the
iteration count; `merge_phase` passes more fuel than there are runs, so the
budget never runs out. -/
def phaseLoop (fuel : Nat) (tapes : List (List (List Int))) (d : Distributor) :
    Distributor :=
  match fuel with
  | 0 => d
  | fuel + 1 =>
    match tapes.filterMap List.head? with
    | [] => d
    | [r] => phaseLoop fuel (tapes.map (List.drop 1)) (emit d r)
    | r1 :: r2 :: _ =>
      phaseLoop fuel (tapes.map (List.drop 1)) (emit d (merge_runs r1 r2))

/-- Model of `merge_phase`: open every input tape for reading, raising
`FileNotFoundError` when one of the files was never created (line 180), then
run the loop starting from two fresh output tape paths. -/
def merge_phase (inputs : List (Option (List (List Int)))) :
    Except String Distributor :=
  if inputs.all Option.isSome then
    .ok (phaseLoop
      ((((inputs.map (fun t => t.getD [])).map List.length).sum) + 1)
      (inputs.map (fun t => t.getD [])) dInit)
  else .error "FileNotFoundError"

lemma phaseLoop_pair :
    ∀ (fuel : Nat) (ta tb : List (List Int)) (d : Distributor),
      ta.length < fuel → tb.length < fuel →
      phaseLoop fuel [ta, tb] d = (mergePairs ta tb).foldl emit d := by
  intro fuel
  induction fuel with
  | zero =>
    intro ta tb d h1 h2
    omega
  | succ fuel ih =>
    intro ta tb d h1 h2
    cases ta with
    | nil =>
      cases tb with
      | nil => simp [phaseLoop, mergePairs]
      | cons b bs =>
        have h3 : bs.length < fuel := by simp at h2; omega
        simp only [phaseLoop, List.filterMap_cons, List.filterMap_nil,
          List.head?_cons, List.head?_nil, List.map_cons, List.map_nil,
          List.drop_one, List.tail_cons, List.tail_nil]
        rw [ih [] bs (emit d b) (by simp; omega) h3]
        simp [mergePairs]
    | cons a as =>
      cases tb with
      | nil =>
        have h3 : as.length < fuel := by simp at h1; omega
        simp only [phaseLoop, List.filterMap_cons, List.filterMap_nil,
          List.head?_cons, List.head?_nil, List.map_cons, List.map_nil,
          List.drop_one, List.tail_cons, List.tail_nil]
        rw [ih as [] (emit d a) h3 (by simp; omega)]
        simp [mergePairs]
      | cons b bs =>
        have h3 : as.length < fuel := by simp at h1; omega
        have h4 : bs.length < fuel := by simp at h2; omega
        simp only [phaseLoop, List.filterMap_cons, List.filterMap_nil,
          List.head?_cons, List.head?_nil, List.map_cons, List.map_nil,
          List.drop_one, List.tail_cons, List.tail_nil]
        rw [ih as bs (emit d (merge_runs a b)) h3 h4]
        simp [mergePairs]

lemma merge_phase_pair (ra rb : List (List Int)) :
    merge_phase [some ra, some rb] = .ok (mkDist (mergePairs ra rb)) := by
  have key : ∀ fuel, ra.length < fuel → rb.length < fuel →
      phaseLoop fuel [ra, rb] dInit = mkDist (mergePairs ra rb) := by
    intro fuel hf1 hf2
    rw [phaseLoop_pair fuel ra rb dInit hf1 hf2, dInit_eq, foldl_emit,
      List.nil_append]
  rw [merge_phase, if_pos (by simp)]
  simp only [List.map_cons, List.map_nil, Option.getD_some, List.sum_cons,
    List.sum_nil]
  rw [key _ (by omega) (by omega)]

lemma merge_phase_none_left (tb : Option (List (List Int))) :
    merge_phase [none, tb] = .error "FileNotFoundError" := by
  rw [merge_phase, if_neg (by simp)]

lemma merge_phase_none_right (ra : List (List Int)) :
    merge_phase [some ra, none] = .error "FileNotFoundError" := by
  rw [merge_phase, if_neg (by simp)]

lemma length_mergePairs :
    ∀ ta tb : List (List Int),
      (mergePairs ta tb).length = max ta.length tb.length := by
  intro ta tb
  induction ta, tb using mergePairs.induct with
  | case1 => simp [mergePairs]
  | case2 a as ih => simp [mergePairs, ih]
  | case3 b bs ih => simp [mergePairs, ih]
  | case4 a as b bs ih => simp [mergePairs, ih, length_merge_runs]; omega

lemma mergePairs_sorted :
    ∀ ta tb : List (List Int),
      (∀ r ∈ ta, r.Sorted (· ≤ ·)) → (∀ r ∈ tb, r.Sorted (· ≤ ·)) →
      ∀ r ∈ mergePairs ta tb, r.Sorted (· ≤ ·) := by
  intro ta tb
  induction ta, tb using mergePairs.induct with
  | case1 =>
    intro _ _ r hr
    simp [mergePairs] at hr
  | case2 a as ih =>
    intro ha _ r hr
    rw [mergePairs] at hr
    rcases List.mem_cons.mp hr with rfl | hr2
    · exact ha r (List.mem_cons_self r as)
    · exact ih (fun x hx => ha x (List.mem_cons_of_mem a hx))
        (by intro x hx; simp at hx) r hr2
  | case3 b bs ih =>
    intro _ hb r hr
    rw [mergePairs] at hr
    rcases List.mem_cons.mp hr with rfl | hr2
    · exact hb r (List.mem_cons_self r bs)
    · exact ih (by intro x hx; simp at hx)
        (fun x hx => hb x (List.mem_cons_of_mem b hx)) r hr2
  | case4 a as b bs ih =>
    intro ha hb r hr
    rw [mergePairs] at hr
    rcases List.mem_cons.mp hr with rfl | hr2
    · exact merge_runs_sorted a b (ha a (List.mem_cons_self a as))
        (hb b (List.mem_cons_self b bs))
    · exact ih (fun x hx => ha x (List.mem_cons_of_mem a hx))
        (fun x hx => hb x (List.mem_cons_of_mem b hx)) r hr2

lemma mergePairs_ne_nil :
    ∀ ta tb : List (List Int),
      (∀ r ∈ ta, r ≠ []) → (∀ r ∈ tb, r ≠ []) →
      ∀ r ∈ mergePairs ta tb, r ≠ [] := by
  intro ta tb
  induction ta, tb using mergePairs.induct with
  | case1 =>
    intro _ _ r hr
    simp [mergePairs] at hr
  | case2 a as ih =>
    intro ha _ r hr
    rw [mergePairs] at hr
    rcases List.mem_cons.mp hr with rfl | hr2
    · exact ha r (List.mem_cons_self r as)
    · exact ih (fun x hx => ha x (List.mem_cons_of_mem a hx))
        (by intro x hx; simp at hx) r hr2
  | case3 b bs ih =>
    intro _ hb r hr
    rw [mergePairs] at hr
    rcases List.mem_cons.mp hr with rfl | hr2
    · exact hb r (List.mem_cons_self r bs)
    · exact ih (by intro x hx; simp at hx)
        (fun x hx => hb x (List.mem_cons_of_mem b hx)) r hr2
  | case4 a as b bs ih =>
    intro ha hb r hr
    rw [mergePairs] at hr
    rcases List.mem_cons.mp hr with rfl | hr2
    · intro h0
      have h5 : (merge_runs a b).length = 0 := by rw [h0]; rfl
      rw [length_merge_runs] at h5
      have h1 : 1 ≤ a.length :=
        List.length_pos.mpr (ha a (List.mem_cons_self a as))
      omega
    · exact ih (fun x hx => ha x (List.mem_cons_of_mem a hx))
        (fun x hx => hb x (List.mem_cons_of_mem b hx)) r hr2

lemma mergePairs_flatten_perm :
    ∀ ta tb : List (List Int),
      (mergePairs ta tb).flatten.Perm (ta.flatten ++ tb.flatten) := by
  intro ta tb
  induction ta, tb using mergePairs.induct with
  | case1 => simp [mergePairs]
  | case2 a as ih =>
    rw [mergePairs]
    simp only [List.flatten_cons, List.flatten_nil, List.append_nil] at ih ⊢
    exact ih.append_left a
  | case3 b bs ih =>
    rw [mergePairs]
    simp only [List.flatten_cons, List.flatten_nil, List.nil_append] at ih ⊢
    exact ih.append_left b
  | case4 a as b bs ih =>
    rw [mergePairs]
    simp only [List.flatten_cons]
    refine ((merge_runs_perm a b).append ih).trans ?_
    have h1 : (a ++ b) ++ (as.flatten ++ bs.flatten)
        = a ++ (b ++ (as.flatten ++ bs.flatten)) := by
      rw [List.append_assoc]
    rw [h1]
    refine (List.Perm.append_left a ?_).trans (by rw [List.append_assoc])
    have h2 : b ++ (as.flatten ++ bs.flatten)
        = (b ++ as.flatten) ++ bs.flatten := by
      rw [List.append_assoc]
    rw [h2]
    exact (List.perm_append_comm.append_right bs.flatten).trans
      (by rw [List.append_assoc])

/-! ## The balanced sort driver (`sort_file`, lines 219-281) -/

/-- The three observable outcomes of `sort_file`: success (`True` returned,
sorted data written), the explicit no-data report (line 276, `False`
returned), and a caught exception (line 279, `False` returned). -/
inductive SortOutcome where
  | success (data : List Int) : SortOutcome
  | noData : SortOutcome
  | error (msg : String) : SortOutcome
deriving DecidableEq, Repr

/-- The merge-pass loop of `sort_file` (lines 240-263) together with the
final read-back (lines 265-277).  Each round runs `merge_phase` from the
current tape pair onto a fresh pair of output tape paths; when a pass wrote
exactly one run, the loop stops and one run is read back from the first
output tape (`if sorted_data:` treats both a missing record and an empty run
as no data).  A raised exception is caught by the surrounding handler, so it
surfaces as `.error`.  `fuel` bounds the number of passes; `sort_file` hands
it a budget strictly larger than any possible number of passes, so the 0 case
is never reached from `sort_file` on the executions described by the lemmas
below. -/
def driverLoop :
    Nat → Option (List (List Int)) → Option (List (List Int)) → SortOutcome
  | 0, _, _ => .error "OutOfFuel"
  | fuel + 1, ta, tb =>
    match merge_phase [ta, tb] with
    | .error e => .error e
    | .ok d =>
      if d.count = 1 then
        match d.tapeA with
        | none => .error "FileNotFoundError"
        | some runs =>
          match runs.head? with
          | none => .noData
          | some r => if r.isEmpty then .noData else .success r
      else driverLoop fuel d.tapeA d.tapeB

/-- Model of `sort_file` (lines 219-281): create the initial runs from the
input, then iterate merge passes until one run remains and read it back. -/
def sort_file (m : Nat) (input : List Int) : SortOutcome :=
  driverLoop (input.length + 2) (create_initial_runs m input).dist.tapeA
    (create_initial_runs m input).dist.tapeB

/-- Driver correctness on a generation of at least two nonempty sorted runs
distributed the way the engine distributes them: the driver reaches success
and returns an ascending permutation of all run contents. -/
lemma driverLoop_spec :
    ∀ (fuel : Nat) (R : List (List Int)),
      2 ≤ R.length → R.length ≤ fuel →
      (∀ r ∈ R, r ≠ []) → (∀ r ∈ R, r.Sorted (· ≤ ·)) →
      ∃ out, driverLoop fuel (optOfList (evens R)) (optOfList (odds R))
          = .success out ∧ out.Sorted (· ≤ ·) ∧ out.Perm R.flatten := by
  intro fuel
  induction fuel with
  | zero =>
    intro R h2 hf hne hs
    omega
  | succ fuel ih =>
    intro R h2 hf hne hs
    have hRne : R ≠ [] := by
      intro h
      subst h
      simp at h2
    have hEne : evens R ≠ [] := evens_ne_nil hRne
    have hOne : odds R ≠ [] := by
      intro h
      have h3 := congrArg List.length h
      rw [length_odds] at h3
      simp at h3
      omega
    have hneE : ∀ r ∈ evens R, r ≠ [] := fun r hr => hne r (mem_evens hr)
    have hneO : ∀ r ∈ odds R, r ≠ [] := fun r hr => hne r (mem_odds hr)
    have hsE : ∀ r ∈ evens R, r.Sorted (· ≤ ·) := fun r hr => hs r (mem_evens hr)
    have hsO : ∀ r ∈ odds R, r.Sorted (· ≤ ·) := fun r hr => hs r (mem_odds hr)
    rw [optOfList_of_ne_nil hEne, optOfList_of_ne_nil hOne]
    have hlenP : (mergePairs (evens R) (odds R)).length = (R.length + 1) / 2 := by
      rw [length_mergePairs, length_evens, length_odds]
      omega
    have hneP : ∀ r ∈ mergePairs (evens R) (odds R), r ≠ [] :=
      mergePairs_ne_nil (evens R) (odds R) hneE hneO
    have hsP : ∀ r ∈ mergePairs (evens R) (odds R), r.Sorted (· ≤ ·) :=
      mergePairs_sorted (evens R) (odds R) hsE hsO
    have hflatP : (mergePairs (evens R) (odds R)).flatten.Perm R.flatten :=
      (mergePairs_flatten_perm (evens R) (odds R)).trans
        (evens_flatten_append_odds_flatten_perm R)
    by_cases hone : (mergePairs (evens R) (odds R)).length = 1
    · obtain ⟨p, hp⟩ := List.length_eq_one.mp hone
      have hpne : p ≠ [] := hneP p (by rw [hp]; exact List.mem_cons_self p [])
      refine ⟨p, ?_, ?_, ?_⟩
      · simp only [driverLoop, merge_phase_pair, hp]
        simp [List.isEmpty_iff, hpne, mkDist, optOfList]
      · exact hsP p (by rw [hp]; exact List.mem_cons_self p [])
      · refine ?_
        have h4 : (mergePairs (evens R) (odds R)).flatten = p ++ [] := by
          rw [hp]
          simp
        rw [← List.append_nil p, ← h4]
        exact hflatP
    · have hge : 2 ≤ (mergePairs (evens R) (odds R)).length := by omega
      have hR3 : 3 ≤ R.length := by omega
      have hfP : (mergePairs (evens R) (odds R)).length ≤ fuel := by omega
      obtain ⟨out, hout, hsort, hperm⟩ :=
        ih (mergePairs (evens R) (odds R)) hge hfP hneP hsP
      refine ⟨out, ?_, hsort, hperm.trans hflatP⟩
      simp only [driverLoop, merge_phase_pair]
      rw [if_neg (by simp [hone])]
      simpa using hout

lemma length_le_flatten_length :
    ∀ L : List (List Int), (∀ r ∈ L, r ≠ []) → L.length ≤ L.flatten.length := by
  intro L
  induction L with
  | nil => intro _; simp
  | cons r L ih =>
    intro h
    simp only [List.flatten_cons, List.length_cons, List.length_append]
    have h1 : 1 ≤ r.length := List.length_pos.mpr (h r (List.mem_cons_self r L))
    have h2 := ih (fun x hx => h x (List.mem_cons_of_mem r hx))
    omega

/-- Full success of the balanced external sort whenever the input is longer
than the memory limit (so that at least two initial runs exist and both tape
files are created). -/
lemma sort_file_success (m : Nat) (hm : 1 ≤ m) (input : List Int)
    (hlen : m < input.length) :
    ∃ out, sort_file m input = .success out ∧ out.Sorted (· ≤ ·) ∧
      out.Perm input := by
  obtain ⟨hA, hB, hC, hBuf⟩ := create_initial_runs_spec m hm input
  have h2 : 2 ≤ (split_and_sort_chunks m input).length :=
    split_length_ge_two m hm input hlen
  have hne : ∀ r ∈ split_and_sort_chunks m input, r ≠ [] :=
    split_and_sort_chunks_ne_nil m input
  have hs : ∀ r ∈ split_and_sort_chunks m input, r.Sorted (· ≤ ·) :=
    split_and_sort_chunks_sorted m input
  have hflat : (split_and_sort_chunks m input).flatten.Perm input :=
    split_and_sort_chunks_flatten_perm m hm input
  have hcard : (split_and_sort_chunks m input).length ≤ input.length := by
    have h3 := length_le_flatten_length (split_and_sort_chunks m input) hne
    have h4 := hflat.length_eq
    omega
  obtain ⟨out, hout, hsort, hperm⟩ :=
    driverLoop_spec (input.length + 2) (split_and_sort_chunks m input) h2
      (by omega) hne hs
  refine ⟨out, ?_, hsort, hperm.trans hflat⟩
  rw [sort_file, hA, hB, hout]

/-! ## K-way heap merge (`ExternalMergeSort.merge_chunks`, lines 66-106)

The `heapq` module is modelled by its contract: the heap is the list of
entries it currently holds, and `heappop` removes and returns the least one.
Entries are `(value, source index)` pairs and Python tuples compare
lexicographically.  Since the loop keeps at most one entry per source, all
entries are distinct and the least entry is unique, so the model is
insensitive to the internal heap layout. -/

/-- Heap entries are compared through decidable equality; registering this
instance keeps `List.erase` on entries definitionally aligned with the
library lemmas about erasure under `DecidableEq`. -/
instance : BEq (Int × Nat) := instBEqOfDecidableEq

/-- Lexicographic order on heap entries, the order `heapq` uses on tuples. -/
def lexLe (p q : Int × Nat) : Prop := p.1 < q.1 ∨ (p.1 = q.1 ∧ p.2 ≤ q.2)

instance (p q : Int × Nat) : Decidable (lexLe p q) := by
  unfold lexLe
  infer_instance

lemma lexLe_refl (p : Int × Nat) : lexLe p p := by unfold lexLe; omega

lemma lexLe_trans {p q r : Int × Nat} (h1 : lexLe p q) (h2 : lexLe q r) :
    lexLe p r := by
  unfold lexLe at h1 h2 ⊢
  omega

lemma lexLe_total (p q : Int × Nat) : lexLe p q ∨ lexLe q p := by
  unfold lexLe
  omega

/-- The least entry of the heap `m :: es`: what `heapq.heappop` returns. -/
def minEntry : (Int × Nat) → List (Int × Nat) → Int × Nat
  | m, [] => m
  | m, e :: es => minEntry (if lexLe e m then e else m) es

lemma minEntry_mem : ∀ (es : List (Int × Nat)) (m : Int × Nat),
    minEntry m es ∈ m :: es := by
  intro es
  induction es with
  | nil => intro m; simp [minEntry]
  | cons e es ih =>
    intro m
    rw [minEntry]
    by_cases hc : lexLe e m
    · rw [if_pos hc]
      rcases List.mem_cons.mp (ih e) with h | h
      · rw [h]
        exact List.mem_cons_of_mem m (List.mem_cons_self e es)
      · exact List.mem_cons_of_mem m (List.mem_cons_of_mem e h)
    · rw [if_neg hc]
      rcases List.mem_cons.mp (ih m) with h | h
      · rw [h]
        exact List.mem_cons_self m (e :: es)
      · exact List.mem_cons_of_mem m (List.mem_cons_of_mem e h)

lemma minEntry_le : ∀ (es : List (Int × Nat)) (m x : Int × Nat),
    x ∈ m :: es → lexLe (minEntry m es) x := by
  intro es
  induction es with
  | nil =>
    intro m x hx
    rw [minEntry]
    rcases List.mem_cons.mp hx with rfl | hx2
    · exact lexLe_refl x
    · simp at hx2
  | cons e es ih =>
    intro m x hx
    rw [minEntry]
    have hcm : lexLe (if lexLe e m then e else m) m := by
      by_cases hc : lexLe e m
      · rw [if_pos hc]; exact hc
      · rw [if_neg hc]; exact lexLe_refl m
    have hce : lexLe (if lexLe e m then e else m) e := by
      by_cases hc : lexLe e m
      · rw [if_pos hc]; exact lexLe_refl e
      · rw [if_neg hc]
        rcases lexLe_total e m with h | h
        · exact absurd h hc
        · exact h
    have hmin : lexLe (minEntry (if lexLe e m then e else m) es)
        (if lexLe e m then e else m) :=
      ih _ _ (List.mem_cons_self _ _)
    rcases List.mem_cons.mp hx with rfl | hx2
    · exact lexLe_trans hmin hcm
    · rcases List.mem_cons.mp hx2 with rfl | hx3
      · exact lexLe_trans hmin hce
      · exact ih _ x (List.mem_cons_of_mem _ hx3)

/-- The heap loop of `merge_chunks` (lines 88-100): pop the least
`(value, index)` entry, emit it, read the next value of that source and push
it when present.  `fuel` equals the number of values still to be emitted, so
it never runs out on the initial state built by `merge_chunks`. -/
def kLoop : Nat → List (Int × Nat) → List (List Int) → List (Int × Nat)
  | 0, _, _ => []
  | _ + 1, [], _ => []
  | fuel + 1, e :: es, rests =>
    match rests.getD (minEntry e es).2 [] with
    | [] => minEntry e es :: kLoop fuel ((e :: es).erase (minEntry e es)) rests
    | y :: ys =>
      minEntry e es ::
        kLoop fuel ((y, (minEntry e es).2) :: (e :: es).erase (minEntry e es))
          (rests.set (minEntry e es).2 ys)

/-- The heap initialization (lines 77-82): one `(first value, index)` entry
per chunk whose first read yields a value, indices in file order. -/
def initHeapAux (i : Nat) : List (List Int) → List (Int × Nat)
  | [] => []
  | [] :: cs => initHeapAux (i + 1) cs
  | (v :: _) :: cs => (v, i) :: initHeapAux (i + 1) cs

def initHeap (chunks : List (List Int)) : List (Int × Nat) :=
  initHeapAux 0 chunks

/-- After the initial reads each chunk cursor stands one value in. -/
def initRests (chunks : List (List Int)) : List (List Int) :=
  chunks.map (List.drop 1)

/-- The `(value, source index)` pairs popped by the whole merge, in emission
order. -/
def merge_chunks_tagged (chunks : List (List Int)) : List (Int × Nat) :=
  kLoop ((initHeap chunks).length + ((initRests chunks).map List.length).sum)
    (initHeap chunks) (initRests chunks)

/-- Model of `ExternalMergeSort.merge_chunks` (lines 66-106): the values
written to the output file, in order. -/
def merge_chunks (chunks : List (List Int)) : List Int :=
  (merge_chunks_tagged chunks).map Prod.fst

@[simp] lemma initHeapAux_nil (k : Nat) : initHeapAux k [] = [] := rfl

@[simp] lemma initHeapAux_nil_cons (k : Nat) (cs : List (List Int)) :
    initHeapAux k ([] :: cs) = initHeapAux (k + 1) cs := rfl

@[simp] lemma initHeapAux_cons_cons (k : Nat) (v : Int) (ws : List Int)
    (cs : List (List Int)) :
    initHeapAux k ((v :: ws) :: cs) = (v, k) :: initHeapAux (k + 1) cs := rfl

lemma getD_set_self :
    ∀ (l : List (List Int)) (i : Nat) (ys : List Int), i < l.length →
      (l.set i ys).getD i [] = ys := by
  intro l
  induction l with
  | nil => intro i ys h; simp at h
  | cons c l ih =>
    intro i ys h
    cases i with
    | zero => rfl
    | succ j => exact ih j ys (by simp at h; omega)

lemma getD_set_ne :
    ∀ (l : List (List Int)) (i j : Nat) (ys : List Int), i ≠ j →
      (l.set i ys).getD j [] = l.getD j [] := by
  intro l
  induction l with
  | nil => intro i j ys h; simp
  | cons c l ih =>
    intro i j ys h
    cases i with
    | zero =>
      cases j with
      | zero => exact absurd rfl h
      | succ j2 => rfl
    | succ i2 =>
      cases j with
      | zero => rfl
      | succ j2 => exact ih i2 j2 ys (by omega)

lemma getD_lt_length :
    ∀ (l : List (List Int)) (i : Nat), l.getD i [] ≠ [] → i < l.length := by
  intro l
  induction l with
  | nil => intro i h; simp at h
  | cons c l ih =>
    intro i h
    cases i with
    | zero => simp
    | succ j =>
      have := ih j (by simpa using h)
      simp
      omega

lemma getD_mem :
    ∀ (l : List (List Int)) (i : Nat), i < l.length → l.getD i [] ∈ l := by
  intro l
  induction l with
  | nil => intro i h; simp at h
  | cons c l ih =>
    intro i h
    cases i with
    | zero => exact List.mem_cons_self c l
    | succ j => exact List.mem_cons_of_mem c (ih j (by simp at h; omega))

lemma sum_map_length_set :
    ∀ (l : List (List Int)) (i : Nat) (y : Int) (ys : List Int),
      l.getD i [] = y :: ys →
      ((l.set i ys).map List.length).sum + 1 = (l.map List.length).sum := by
  intro l
  induction l with
  | nil => intro i y ys h; simp at h
  | cons c l ih =>
    intro i y ys h
    cases i with
    | zero =>
      have hc : c = y :: ys := h
      subst hc
      simp
      omega
    | succ j =>
      have := ih j y ys h
      simp only [List.set_cons_succ, List.map_cons, List.sum_cons] at this ⊢
      omega

lemma flatten_set_perm :
    ∀ (l : List (List Int)) (i : Nat) (y : Int) (ys : List Int),
      l.getD i [] = y :: ys →
      l.flatten.Perm (y :: (l.set i ys).flatten) := by
  intro l
  induction l with
  | nil => intro i y ys h; simp at h
  | cons c l ih =>
    intro i y ys h
    cases i with
    | zero =>
      have hc : c = y :: ys := h
      subst hc
      simp
    | succ j =>
      have hstep := ih j y ys h
      simp only [List.set_cons_succ, List.flatten_cons]
      refine (hstep.append_left c).trans ?_
      exact List.perm_middle

lemma getD_map_drop :
    ∀ (cs : List (List Int)) (i : Nat),
      (cs.map (List.drop 1)).getD i [] = (cs.getD i []).drop 1 := by
  intro cs
  induction cs with
  | nil => intro i; simp
  | cons c cs ih =>
    intro i
    cases i with
    | zero => rfl
    | succ j => exact ih j

/-- Characterization of the initial heap entries: entry `(v, i)` means chunk
`i` is nonempty and starts with `v`. -/
lemma initHeapAux_mem_spec :
    ∀ (cs : List (List Int)) (k : Nat) (v : Int) (i : Nat),
      (v, i) ∈ initHeapAux k cs →
      k ≤ i ∧ i - k < cs.length ∧ ∃ t, cs.getD (i - k) [] = v :: t := by
  intro cs
  induction cs with
  | nil => intro k v i h; simp at h
  | cons c cs ih =>
    intro k v i h
    cases c with
    | nil =>
      rw [initHeapAux_nil_cons] at h
      obtain ⟨h1, h2, t, h3⟩ := ih (k + 1) v i h
      refine ⟨by omega, by simp; omega, t, ?_⟩
      have h4 : i - k = (i - (k + 1)) + 1 := by omega
      rw [h4, List.getD_cons_succ]
      exact h3
    | cons w ws =>
      rw [initHeapAux_cons_cons] at h
      rcases List.mem_cons.mp h with h0 | h0
      · obtain ⟨rfl, rfl⟩ : v = w ∧ i = k := by
          simpa [Prod.ext_iff] using h0
        refine ⟨le_refl i, by simp, ws, by simp⟩
      · obtain ⟨h1, h2, t, h3⟩ := ih (k + 1) v i h0
        refine ⟨by omega, by simp; omega, t, ?_⟩
        have h4 : i - k = (i - (k + 1)) + 1 := by omega
        rw [h4, List.getD_cons_succ]
        exact h3

/-- Sources without an initial heap entry are empty. -/
lemma initHeapAux_cover :
    ∀ (cs : List (List Int)) (k i : Nat), i < cs.length →
      (∀ v, (v, k + i) ∉ initHeapAux k cs) → cs.getD i [] = [] := by
  intro cs
  induction cs with
  | nil => intro k i h; simp at h
  | cons c cs ih =>
    intro k i hlen hno
    cases c with
    | nil =>
      cases i with
      | zero => rfl
      | succ j =>
        rw [List.getD_cons_succ]
        refine ih (k + 1) j (by simp at hlen; omega) ?_
        intro v hv
        apply hno v
        have h4 : k + (j + 1) = k + 1 + j := by omega
        rw [h4, initHeapAux_nil_cons]
        exact hv
    | cons w ws =>
      cases i with
      | zero =>
        exfalso
        exact hno w (by simp)
      | succ j =>
        rw [List.getD_cons_succ]
        refine ih (k + 1) j (by simp at hlen; omega) ?_
        intro v hv
        apply hno v
        have h4 : k + (j + 1) = k + 1 + j := by omega
        rw [h4, initHeapAux_cons_cons]
        exact List.mem_cons_of_mem _ hv

lemma initHeapAux_snd_lb :
    ∀ (cs : List (List Int)) (k : Nat) (p : Int × Nat),
      p ∈ initHeapAux k cs → k ≤ p.2 := by
  intro cs k p hp
  have h := initHeapAux_mem_spec cs k p.1 p.2 (by simpa using hp)
  exact h.1

lemma initHeapAux_snd_nodup :
    ∀ (cs : List (List Int)) (k : Nat),
      ((initHeapAux k cs).map Prod.snd).Nodup := by
  intro cs
  induction cs with
  | nil => intro k; simp
  | cons c cs ih =>
    intro k
    cases c with
    | nil => simpa using ih (k + 1)
    | cons w ws =>
      simp only [initHeapAux_cons_cons, List.map_cons]
      rw [List.nodup_cons]
      refine ⟨?_, ih (k + 1)⟩
      intro hk
      obtain ⟨p, hp, hpk⟩ := List.mem_map.mp hk
      have h1 := initHeapAux_snd_lb cs (k + 1) p hp
      omega

lemma initHeapAux_fst_perm :
    ∀ (cs : List (List Int)) (k : Nat),
      ((initHeapAux k cs).map Prod.fst
        ++ (cs.map (List.drop 1)).flatten).Perm cs.flatten := by
  intro cs
  induction cs with
  | nil => intro k; simp
  | cons c cs ih =>
    intro k
    cases c with
    | nil => simpa using ih (k + 1)
    | cons w ws =>
      simp only [initHeapAux_cons_cons, List.map_cons, List.flatten_cons,
        List.cons_append, List.drop_succ_cons, List.drop_zero]
      refine List.Perm.cons w ?_
      have h1 : (initHeapAux (k + 1) cs).map Prod.fst
            ++ (ws ++ (cs.map (List.drop 1)).flatten)
          = ((initHeapAux (k + 1) cs).map Prod.fst ++ ws)
            ++ (cs.map (List.drop 1)).flatten := by
        rw [List.append_assoc]
      rw [h1]
      refine ((List.perm_append_comm.append_right _).trans ?_)
      rw [List.append_assoc]
      exact List.Perm.append_left ws (ih (k + 1))

lemma flatten_eq_nil_of_getD :
    ∀ l : List (List Int),
      (∀ i, i < l.length → l.getD i [] = []) → l.flatten = [] := by
  intro l
  induction l with
  | nil => intro _; rfl
  | cons c l ih =>
    intro h
    have h0 : c = [] := h 0 (by simp)
    subst h0
    simp only [List.flatten_cons, List.nil_append]
    refine ih ?_
    intro i hi
    have h1 := h (i + 1) (by simp; omega)
    simpa using h1

lemma kLoop_succ_nil (fuel : Nat) (e : Int × Nat) (es : List (Int × Nat))
    (rests : List (List Int)) (h : rests.getD (minEntry e es).2 [] = []) :
    kLoop (fuel + 1) (e :: es) rests
      = minEntry e es :: kLoop fuel ((e :: es).erase (minEntry e es)) rests := by
  simp only [kLoop, h]

lemma kLoop_succ_cons (fuel : Nat) (e : Int × Nat) (es : List (Int × Nat))
    (rests : List (List Int)) (y : Int) (ys : List Int)
    (h : rests.getD (minEntry e es).2 [] = y :: ys) :
    kLoop (fuel + 1) (e :: es) rests
      = minEntry e es ::
          kLoop fuel ((y, (minEntry e es).2) :: (e :: es).erase (minEntry e es))
            (rests.set (minEntry e es).2 ys) := by
  simp only [kLoop, h]

/-- Heap-loop invariant: when every heap entry heads a sorted remainder of its
source, every source without an entry is exhausted, and no two entries share
a source, the loop emits all held and pending values exactly once, in
lexicographically ascending entry order, and every emitted entry is
lexicographically at least some entry of the starting heap. -/
lemma kLoop_spec :
    ∀ (fuel : Nat) (heap : List (Int × Nat)) (rests : List (List Int)),
      heap.length + (rests.map List.length).sum = fuel →
      (∀ e ∈ heap, (e.1 :: rests.getD e.2 []).Sorted (· ≤ ·)) →
      (∀ i, i < rests.length → (∀ e ∈ heap, e.2 ≠ i) → rests.getD i [] = []) →
      ((heap.map Prod.snd).Nodup) →
      ((kLoop fuel heap rests).map Prod.fst).Perm
          (heap.map Prod.fst ++ rests.flatten) ∧
      (kLoop fuel heap rests).Pairwise lexLe ∧
      (∀ p ∈ kLoop fuel heap rests, ∃ x ∈ heap, lexLe x p) := by
  intro fuel
  induction fuel with
  | zero =>
    intro heap rests hfuel hsort hexh hnodup
    have hheap : heap = [] := List.length_eq_zero.mp (by omega)
    subst hheap
    have hsum : (rests.map List.length).sum = 0 := by simpa using hfuel
    have hfl : rests.flatten = [] := by
      have h1 : rests.flatten.length = 0 := by
        rw [List.length_flatten]
        exact hsum
      exact List.length_eq_zero.mp h1
    refine ⟨?_, by simp [kLoop], by simp [kLoop]⟩
    simp [kLoop, hfl]
  | succ fuel ih =>
    intro heap rests hfuel hsort hexh hnodup
    cases heap with
    | nil =>
      exfalso
      have hall : ∀ i, i < rests.length → rests.getD i [] = [] := by
        intro i hi
        exact hexh i hi (by intro x hx; simp at hx)
      have hfl : rests.flatten = [] := flatten_eq_nil_of_getD rests hall
      have hsum : (rests.map List.length).sum = 0 := by
        rw [← List.length_flatten, hfl]
        rfl
      simp [hsum] at hfuel
    | cons e es =>
      have hm_mem : minEntry e es ∈ e :: es := minEntry_mem es e
      have hm_le : ∀ x ∈ e :: es, lexLe (minEntry e es) x :=
        fun x hx => minEntry_le es e x hx
      have hperm_heap : (e :: es).Perm (minEntry e es :: (e :: es).erase (minEntry e es)) :=
        List.perm_cons_erase hm_mem
      have hlen2 : ((e :: es).erase (minEntry e es)).length = es.length := by
        have h1 := hperm_heap.length_eq
        simp only [List.length_cons] at h1
        omega
      have hperm_snd : ((e :: es).map Prod.snd).Perm
          ((minEntry e es).2 :: ((e :: es).erase (minEntry e es)).map Prod.snd) := by
        simpa using hperm_heap.map Prod.snd
      have hnodup_cons := (hperm_snd.nodup_iff).mp hnodup
      have hnodup2 : (((e :: es).erase (minEntry e es)).map Prod.snd).Nodup :=
        (List.nodup_cons.mp hnodup_cons).2
      have hm_not2 : ∀ x ∈ (e :: es).erase (minEntry e es), x.2 ≠ (minEntry e es).2 := by
        intro x hx heq
        exact (List.nodup_cons.mp hnodup_cons).1
          (List.mem_map.mpr ⟨x, hx, heq⟩)
      have hheapfst : ((e :: es).map Prod.fst).Perm
          ((minEntry e es).1 :: ((e :: es).erase (minEntry e es)).map Prod.fst) := by
        simpa using hperm_heap.map Prod.fst
      cases hgd : rests.getD (minEntry e es).2 [] with
      | nil =>
        rw [kLoop_succ_nil fuel e es rests hgd]
        have hfuel2 : ((e :: es).erase (minEntry e es)).length
            + (rests.map List.length).sum = fuel := by
          rw [hlen2]
          simp only [List.length_cons] at hfuel
          omega
        have hsort2 : ∀ x ∈ (e :: es).erase (minEntry e es),
            (x.1 :: rests.getD x.2 []).Sorted (· ≤ ·) :=
          fun x hx => hsort x (List.mem_of_mem_erase hx)
        have hexh2 : ∀ i, i < rests.length →
            (∀ x ∈ (e :: es).erase (minEntry e es), x.2 ≠ i) →
            rests.getD i [] = [] := by
          intro i hi hno
          by_cases hieq : i = (minEntry e es).2
          · rw [hieq]
            exact hgd
          · refine hexh i hi ?_
            intro x hx
            rcases List.mem_cons.mp ((hperm_heap.mem_iff).mp hx) with hx1 | hx2
            · rw [hx1]
              exact fun h => hieq h.symm
            · exact hno x hx2
        obtain ⟨permI, pwI, domI⟩ :=
          ih ((e :: es).erase (minEntry e es)) rests hfuel2 hsort2 hexh2 hnodup2
        refine ⟨?_, ?_, ?_⟩
        · simp only [List.map_cons]
          refine (permI.cons _).trans ?_
          rw [← List.cons_append]
          exact List.Perm.append_right rests.flatten hheapfst.symm
        · rw [List.pairwise_cons]
          constructor
          · intro p hp
            obtain ⟨x, hx, hxp⟩ := domI p hp
            exact lexLe_trans (hm_le x (List.mem_of_mem_erase hx)) hxp
          · exact pwI
        · intro p hp
          rcases List.mem_cons.mp hp with rfl | hp2
          · exact ⟨minEntry e es, hm_mem, lexLe_refl _⟩
          · obtain ⟨x, hx, hxp⟩ := domI p hp2
            exact ⟨minEntry e es, hm_mem,
              lexLe_trans (hm_le x (List.mem_of_mem_erase hx)) hxp⟩
      | cons y ys =>
        rw [kLoop_succ_cons fuel e es rests y ys hgd]
        have hmlt : (minEntry e es).2 < rests.length :=
          getD_lt_length rests _ (by rw [hgd]; simp)
        have hsorted_m : ((minEntry e es).1 :: y :: ys).Sorted (· ≤ ·) := by
          have h1 := hsort (minEntry e es) hm_mem
          rwa [hgd] at h1
        have hmy : (minEntry e es).1 ≤ y :=
          (List.sorted_cons.mp hsorted_m).1 y (List.mem_cons_self y ys)
        have hsy : (y :: ys).Sorted (· ≤ ·) := (List.sorted_cons.mp hsorted_m).2
        have hfuel2 : ((y, (minEntry e es).2) :: (e :: es).erase (minEntry e es)).length
            + ((rests.set (minEntry e es).2 ys).map List.length).sum = fuel := by
          have h1 := sum_map_length_set rests (minEntry e es).2 y ys hgd
          simp only [List.length_cons, hlen2]
          simp only [List.length_cons] at hfuel
          omega
        have hsort2 : ∀ x ∈ (y, (minEntry e es).2) :: (e :: es).erase (minEntry e es),
            (x.1 :: (rests.set (minEntry e es).2 ys).getD x.2 []).Sorted (· ≤ ·) := by
          intro x hx
          rcases List.mem_cons.mp hx with rfl | hx2
          · rw [show ((y, (minEntry e es).2) : Int × Nat).2 = (minEntry e es).2 from rfl,
              getD_set_self rests _ ys hmlt]
            exact hsy
          · rw [getD_set_ne rests _ x.2 ys (Ne.symm (hm_not2 x hx2))]
            exact hsort x (List.mem_of_mem_erase hx2)
        have hexh2 : ∀ i, i < (rests.set (minEntry e es).2 ys).length →
            (∀ x ∈ (y, (minEntry e es).2) :: (e :: es).erase (minEntry e es), x.2 ≠ i) →
            (rests.set (minEntry e es).2 ys).getD i [] = [] := by
          intro i hi hno
          have hmi : (minEntry e es).2 ≠ i :=
            hno (y, (minEntry e es).2) (List.mem_cons_self _ _)
          rw [getD_set_ne rests _ i ys hmi]
          refine hexh i (by simpa using hi) ?_
          intro x hx
          rcases List.mem_cons.mp ((hperm_heap.mem_iff).mp hx) with hx1 | hx2
          · rw [hx1]
            exact hmi
          · exact hno x (List.mem_cons_of_mem _ hx2)
        have hnodup2b : (((y, (minEntry e es).2) :: (e :: es).erase (minEntry e es)).map
            Prod.snd).Nodup := by
          simp only [List.map_cons]
          rw [List.nodup_cons]
          refine ⟨?_, hnodup2⟩
          intro hmem
          obtain ⟨x, hx, hx2⟩ := List.mem_map.mp hmem
          exact hm_not2 x hx hx2
        obtain ⟨permI, pwI, domI⟩ := ih _ _ hfuel2 hsort2 hexh2 hnodup2b
        have hflat_set : rests.flatten.Perm
            (y :: (rests.set (minEntry e es).2 ys).flatten) :=
          flatten_set_perm rests _ y ys hgd
        have hm_le2 : ∀ x ∈ (y, (minEntry e es).2) :: (e :: es).erase (minEntry e es),
            lexLe (minEntry e es) x := by
          intro x hx
          rcases List.mem_cons.mp hx with rfl | hx2
          · unfold lexLe
            rcases lt_or_eq_of_le hmy with h1 | h1
            · exact Or.inl h1
            · exact Or.inr ⟨h1, le_refl _⟩
          · exact hm_le x (List.mem_of_mem_erase hx2)
        refine ⟨?_, ?_, ?_⟩
        · simp only [List.map_cons]
          refine (permI.cons _).trans ?_
          simp only [List.map_cons, List.cons_append]
          refine (List.Perm.cons _
            (List.perm_middle.symm.trans
              (List.Perm.append_left _ hflat_set.symm))).trans ?_
          rw [← List.cons_append]
          exact List.Perm.append_right rests.flatten hheapfst.symm
        · rw [List.pairwise_cons]
          constructor
          · intro p hp
            obtain ⟨x, hx, hxp⟩ := domI p hp
            exact lexLe_trans (hm_le2 x hx) hxp
          · exact pwI
        · intro p hp
          rcases List.mem_cons.mp hp with rfl | hp2
          · exact ⟨minEntry e es, hm_mem, lexLe_refl _⟩
          · obtain ⟨x, hx, hxp⟩ := domI p hp2
            exact ⟨minEntry e es, hm_mem, lexLe_trans (hm_le2 x hx) hxp⟩

/-- The initial state built by `merge_chunks` satisfies the loop invariants,
so the emitted pairs are lexicographically ascending and carry exactly the
chunk contents. -/
lemma merge_chunks_spec (chunks : List (List Int))
    (hs : ∀ c ∈ chunks, c.Sorted (· ≤ ·)) :
    (merge_chunks chunks).Perm chunks.flatten ∧
    (merge_chunks_tagged chunks).Pairwise lexLe := by
  have hsort : ∀ e ∈ initHeap chunks,
      (e.1 :: (initRests chunks).getD e.2 []).Sorted (· ≤ ·) := by
    intro e he
    obtain ⟨h1, h2, t, h3⟩ :=
      initHeapAux_mem_spec chunks 0 e.1 e.2 (by simpa using he)
    simp only [Nat.sub_zero] at h2 h3
    have h4 : (initRests chunks).getD e.2 [] = t := by
      rw [initRests, getD_map_drop, h3]
      rfl
    rw [h4, ← h3]
    exact hs _ (getD_mem chunks e.2 h2)
  have hexh : ∀ i, i < (initRests chunks).length →
      (∀ e ∈ initHeap chunks, e.2 ≠ i) → (initRests chunks).getD i [] = [] := by
    intro i hi hno
    have hlen : i < chunks.length := by simpa [initRests] using hi
    have h0 : chunks.getD i [] = [] := by
      refine initHeapAux_cover chunks 0 i hlen ?_
      intro v hv
      exact hno (v, 0 + i) hv (by simp)
    rw [initRests, getD_map_drop, h0]
    rfl
  have hnodup : ((initHeap chunks).map Prod.snd).Nodup :=
    initHeapAux_snd_nodup chunks 0
  obtain ⟨p1, p2, p3⟩ :=
    kLoop_spec ((initHeap chunks).length + ((initRests chunks).map List.length).sum)
      (initHeap chunks) (initRests chunks) rfl hsort hexh hnodup
  exact ⟨p1.trans (initHeapAux_fst_perm chunks 0), p2⟩

lemma merge_chunks_sorted (chunks : List (List Int))
    (hs : ∀ c ∈ chunks, c.Sorted (· ≤ ·)) :
    (merge_chunks chunks).Sorted (· ≤ ·) := by
  have h2 := (merge_chunks_spec chunks hs).2
  refine List.Pairwise.map Prod.fst ?_ h2
  intro a b hab
  unfold lexLe at hab
  omega

/-- Model of `ExternalMergeSort.external_merge_sort` (lines 121-149): split
the input into sorted chunks, k-way merge them into the output. -/
def external_merge_sort (c : Nat) (input : List Int) : List Int :=
  merge_chunks (split_and_sort_chunks c input)

/-! ## Claim theorems -/

/-- Claim C1, counterexample: the claim as stated fails for the balanced
engine.  On the single element input `[5]` with memory limit 2, run
generation flushes only one run, so only the first tape file is ever
created; the first merge pass raises `FileNotFoundError` when opening the
second tape, and `sort_file` catches it and reports failure instead of
producing a sorted permutation of the input. -/
theorem c1_counterexample : sort_file 2 [5] = .error "FileNotFoundError" := by
  rfl

/-- Claim C1 (amended): both engines produce an ascending permutation of the
input — the k-way driver `external_merge_sort` for every finite input and
every positive chunk size, the balanced driver `sort_file` whenever the
input is longer than the (positive) memory limit.  For nonempty inputs of at
most `memory_limit` elements the balanced driver instead fails with
`FileNotFoundError` (see the counterexample), because a one-run generation
leaves the second tape file uncreated. -/
theorem c1_sort_permutation_ascending (input : List Int) (c m : Nat)
    (hc : 1 ≤ c) (hm : 1 ≤ m) :
    ((external_merge_sort c input).Sorted (· ≤ ·) ∧
      (external_merge_sort c input).Perm input) ∧
    (m < input.length →
      ∃ out, sort_file m input = .success out ∧ out.Sorted (· ≤ ·) ∧
        out.Perm input) := by
  refine ⟨⟨?_, ?_⟩, ?_⟩
  · exact merge_chunks_sorted _ (split_and_sort_chunks_sorted c input)
  · exact ((merge_chunks_spec _ (split_and_sort_chunks_sorted c input)).1).trans
      (split_and_sort_chunks_flatten_perm c hc input)
  · intro hlen
    exact sort_file_success m hm input hlen

theorem c1_sort_witness :
    (1 ≤ 2 ∧ 1 ≤ 2) ∧
    (((external_merge_sort 2 [3, 1, 2]).Sorted (· ≤ ·) ∧
        (external_merge_sort 2 [3, 1, 2]).Perm [3, 1, 2]) ∧
      (2 < ([3, 1, 2] : List Int).length →
        ∃ out, sort_file 2 [3, 1, 2] = .success out ∧ out.Sorted (· ≤ ·) ∧
          out.Perm [3, 1, 2])) :=
  ⟨⟨by decide, by decide⟩,
    c1_sort_permutation_ascending [3, 1, 2] 2 2 (by decide) (by decide)⟩

/-- Claim C2: the two-way merge of two ascending runs is ascending, a
permutation of the concatenation, and stable: rerunning the merge on values
tagged with their run of origin (the comparison still looking only at the
values, as the source compares `run1[i] <= run2[j]`) keeps each run as the
exact subsequence of its tag, and never places a second-run value before an
equal first-run value. -/
theorem c2_merge_runs_correct (a b : List Int)
    (ha : a.Sorted (· ≤ ·)) (hb : b.Sorted (· ≤ ·)) :
    (merge_runs a b).Sorted (· ≤ ·) ∧
    (merge_runs a b).Perm (a ++ b) ∧
    (mergeTag a b).map Prod.fst = merge_runs a b ∧
    (mergeTag a b).filter (fun p => p.2 == 0) = tag0 a ∧
    (mergeTag a b).filter (fun p => p.2 == 1) = tag1 b ∧
    (mergeTag a b).Pairwise (fun p q => p.1 = q.1 → p.2 ≤ q.2) := by
  have htx : ∀ p ∈ tag0 a, p.2 = 0 := by
    intro p hp
    obtain ⟨v, hv, rfl⟩ := List.mem_map.mp hp
    rfl
  have hty : ∀ p ∈ tag1 b, p.2 = 1 := by
    intro p hp
    obtain ⟨v, hv, rfl⟩ := List.mem_map.mp hp
    rfl
  have hpx : (tag0 a).Pairwise (fun p q => p.1 ≤ q.1) := by
    rw [tag0, List.pairwise_map]
    exact ha
  have hpy : (tag1 b).Pairwise (fun p q => p.1 ≤ q.1) := by
    rw [tag1, List.pairwise_map]
    exact hb
  refine ⟨merge_runs_sorted a b ha hb, merge_runs_perm a b, mergeTag_map_fst a b,
    mergeBy_filter_tag0 (tag0 a) (tag1 b) htx hty,
    mergeBy_filter_tag1 (tag0 a) (tag1 b) htx hty, ?_⟩
  exact (mergeTag_pairwise (tag0 a) (tag1 b) hpx hpy htx hty).imp
    (fun h => h.2)

theorem c2_merge_runs_witness :
    (([1, 3] : List Int).Sorted (· ≤ ·) ∧ ([2, 3] : List Int).Sorted (· ≤ ·)) ∧
    ((merge_runs [1, 3] [2, 3]).Sorted (· ≤ ·) ∧
      (merge_runs [1, 3] [2, 3]).Perm ([1, 3] ++ [2, 3]) ∧
      (mergeTag [1, 3] [2, 3]).map Prod.fst = merge_runs [1, 3] [2, 3] ∧
      (mergeTag [1, 3] [2, 3]).filter (fun p => p.2 == 0) = tag0 [1, 3] ∧
      (mergeTag [1, 3] [2, 3]).filter (fun p => p.2 == 1) = tag1 [2, 3] ∧
      (mergeTag [1, 3] [2, 3]).Pairwise (fun p q => p.1 = q.1 → p.2 ≤ q.2)) :=
  ⟨⟨by decide, by decide⟩,
    c2_merge_runs_correct [1, 3] [2, 3] (by decide) (by decide)⟩

/-- Claim C3: the k-way heap merge of any family of ascending chunks emits an
ascending permutation of the concatenation of all chunks, in one pass with
the heap seeded by one `(first value, source index)` entry per nonempty
chunk and drained by repeated pops, terminating when the heap is empty (the
definitions `initHeapAux` and `kLoop`). -/
theorem c3_kway_merge_correct (chunks : List (List Int))
    (hs : ∀ c ∈ chunks, c.Sorted (· ≤ ·)) :
    (merge_chunks chunks).Sorted (· ≤ ·) ∧
    (merge_chunks chunks).Perm chunks.flatten :=
  ⟨merge_chunks_sorted chunks hs, (merge_chunks_spec chunks hs).1⟩

theorem c3_kway_merge_witness :
    (∀ c ∈ [[1, 4, 7], [2, 5], [3, 6, 8, 9]], c.Sorted (· ≤ (· : Int))) ∧
    ((merge_chunks [[1, 4, 7], [2, 5], [3, 6, 8, 9]]).Sorted (· ≤ ·) ∧
      (merge_chunks [[1, 4, 7], [2, 5], [3, 6, 8, 9]]).Perm
        ([[1, 4, 7], [2, 5], [3, 6, 8, 9]] : List (List Int)).flatten) :=
  ⟨by decide, c3_kway_merge_correct [[1, 4, 7], [2, 5], [3, 6, 8, 9]] (by decide)⟩

/-- Claim C4: for a positive memory limit, run generation conserves every
element (the total length across both tapes equals the input length, so the
final partial buffer is flushed rather than dropped and the state ends with
an empty buffer), every written run is ascending; the same holds for the
k-way splitter with a positive chunk size. -/
theorem c4_run_generation_conserves (input : List Int) (m c : Nat)
    (hm : 1 ≤ m) (hc : 1 ≤ c) :
    (((create_initial_runs m input).dist.tapeA.getD []).flatten.length
        + ((create_initial_runs m input).dist.tapeB.getD []).flatten.length
        = input.length ∧
      (∀ r ∈ (create_initial_runs m input).dist.tapeA.getD []
          ++ (create_initial_runs m input).dist.tapeB.getD [],
        r.Sorted (· ≤ ·)) ∧
      (create_initial_runs m input).buffer = []) ∧
    ((split_and_sort_chunks c input).flatten.length = input.length ∧
      ∀ r ∈ split_and_sort_chunks c input, r.Sorted (· ≤ ·)) := by
  obtain ⟨hA, hB, hC, hBuf⟩ := create_initial_runs_spec m hm input
  have hflatm : (split_and_sort_chunks m input).flatten.Perm input :=
    split_and_sort_chunks_flatten_perm m hm input
  refine ⟨⟨?_, ?_, hBuf⟩, ?_, split_and_sort_chunks_sorted c input⟩
  · rw [hA, hB, getD_optOfList, getD_optOfList]
    have h1 : ((evens (split_and_sort_chunks m input)).flatten
          ++ (odds (split_and_sort_chunks m input)).flatten).length
        = (split_and_sort_chunks m input).flatten.length :=
      (evens_flatten_append_odds_flatten_perm
        (split_and_sort_chunks m input)).length_eq
    have h2 := hflatm.length_eq
    simp only [List.length_append] at h1
    omega
  · rw [hA, hB, getD_optOfList, getD_optOfList]
    intro r hr
    rcases List.mem_append.mp hr with h | h
    · exact split_and_sort_chunks_sorted m input r (mem_evens h)
    · exact split_and_sort_chunks_sorted m input r (mem_odds h)
  · exact (split_and_sort_chunks_flatten_perm c hc input).length_eq

theorem c4_run_generation_witness :
    (1 ≤ 2 ∧ 1 ≤ 2) ∧
    ((((create_initial_runs 2 [5, 3, 8]).dist.tapeA.getD []).flatten.length
        + ((create_initial_runs 2 [5, 3, 8]).dist.tapeB.getD []).flatten.length
        = ([5, 3, 8] : List Int).length ∧
      (∀ r ∈ (create_initial_runs 2 [5, 3, 8]).dist.tapeA.getD []
          ++ (create_initial_runs 2 [5, 3, 8]).dist.tapeB.getD [],
        r.Sorted (· ≤ ·)) ∧
      (create_initial_runs 2 [5, 3, 8]).buffer = []) ∧
    ((split_and_sort_chunks 2 [5, 3, 8]).flatten.length
        = ([5, 3, 8] : List Int).length ∧
      ∀ r ∈ split_and_sort_chunks 2 [5, 3, 8], r.Sorted (· ≤ ·))) :=
  ⟨⟨by decide, by decide⟩,
    c4_run_generation_conserves [5, 3, 8] 2 2 (by decide) (by decide)⟩

/-- Claim C5: the claim describes the intent, but the code fails.  On input
`[5]` with memory limit 3 (element count at most the limit), run generation
produces exactly one run, written to the first tape only: the second tape
file is never created, so `merge_phase` raises `FileNotFoundError` on open
and `sort_file` returns failure instead of succeeding with the input
unchanged. -/
theorem c5_single_run_failure :
    (create_initial_runs 3 [5]).dist.count = 1 ∧
    (create_initial_runs 3 [5]).dist.tapeA = some [[5]] ∧
    (create_initial_runs 3 [5]).dist.tapeB = none ∧
    sort_file 3 [5] = .error "FileNotFoundError" :=
  ⟨rfl, rfl, rfl, rfl⟩

/-- Claim C6: the claim describes the intent, but the code fails.  Empty
input yields zero runs and neither tape file is created; the first merge
pass then raises `FileNotFoundError` opening the first tape, which
`sort_file` catches, returning plain failure — the "Nenhum dado foi
processado" branch (line 276) is never reached. -/
theorem c6_empty_input_failure (m : Nat) :
    (create_initial_runs m []).dist.count = 0 ∧
    (create_initial_runs m []).dist.tapeA = none ∧
    (create_initial_runs m []).dist.tapeB = none ∧
    (create_initial_runs m []).buffer = [] ∧
    sort_file m [] = .error "FileNotFoundError" :=
  ⟨rfl, rfl, rfl, rfl, rfl⟩

/-- Claim C7, counterexample: from a generation holding exactly one run,
distributed as the engine distributes runs (the single run on the first
tape, the second tape file never created), the driver does not terminate
with a one-run pass: it raises `FileNotFoundError` opening the missing
second tape. -/
theorem c7_counterexample :
    driverLoop 5 (optOfList (evens [[2]])) (optOfList (odds [[2]]))
      = .error "FileNotFoundError" := by
  rfl

/-- Claim C7 (amended to generations of at least two runs): starting from any
generation of n ≥ 2 nonempty sorted runs distributed as the engine
distributes them, one merge pass produces ⌈n/2⌉ runs — the run count is at
most halved, up to rounding — and the driver, given any pass budget of at
least n, terminates with a pass that produces exactly one run, returned as
the final sorted sequence. -/
theorem c7_driver_terminates (R : List (List Int)) (fuel : Nat)
    (h2 : 2 ≤ R.length) (hf : R.length ≤ fuel)
    (hne : ∀ r ∈ R, r ≠ []) (hs : ∀ r ∈ R, r.Sorted (· ≤ ·)) :
    2 * (mergePairs (evens R) (odds R)).length ≤ R.length + 1 ∧
    ∃ out, driverLoop fuel (optOfList (evens R)) (optOfList (odds R))
      = .success out := by
  constructor
  · rw [length_mergePairs, length_evens, length_odds]
    omega
  · obtain ⟨out, hout, _, _⟩ := driverLoop_spec fuel R h2 hf hne hs
    exact ⟨out, hout⟩

theorem c7_driver_witness :
    (2 ≤ ([[1], [2]] : List (List Int)).length ∧
      ([[1], [2]] : List (List Int)).length ≤ 2 ∧
      (∀ r ∈ ([[1], [2]] : List (List Int)), r ≠ []) ∧
      (∀ r ∈ ([[1], [2]] : List (List Int)), r.Sorted (· ≤ ·))) ∧
    (2 * (mergePairs (evens [[1], [2]]) (odds [[1], [2]])).length
        ≤ ([[1], [2]] : List (List Int)).length + 1 ∧
      ∃ out, driverLoop 2 (optOfList (evens [[1], [2]]))
          (optOfList (odds [[1], [2]])) = .success out) :=
  ⟨⟨by decide, by decide, by decide, by decide⟩,
    c7_driver_terminates [[1], [2]] 2 (by decide) (by decide) (by decide)
      (by decide)⟩

/-- Claim C8, counterexample: a record announcing three values but holding
only two reads back as a clean end of stream (`None`) with no error raised —
the `except EOFError` handler in `read_run_from_tape` also swallows the
truncation, so truncation is silently treated as ordinary end of stream. -/
theorem c8_counterexample :
    read_run_from_tape [Pk.int 3, Pk.int 1, Pk.int 2] = .ok (none, []) := by
  rfl

/-- Claim C8 (amended): a malformed length prefix (a pickled object that is
not an integer) does raise a fatal error that aborts the pass, but a
truncated record — fewer serialized values than the prefix announces — is
silently returned as `None`, indistinguishable from ordinary end of
stream. -/
theorem c8_read_run_behaviour (rest s : List Pk) (n : Int)
    (htrunc : pickleLoads n.toNat s = none) :
    read_run_from_tape (Pk.other :: rest) = .error () ∧
    read_run_from_tape (Pk.int n :: s) = .ok (none, []) := by
  refine ⟨rfl, ?_⟩
  simp [read_run_from_tape, htrunc]

theorem c8_read_run_witness :
    pickleLoads (Int.toNat 3) [Pk.int 1, Pk.int 2] = none ∧
    (read_run_from_tape (Pk.other :: []) = .error () ∧
      read_run_from_tape (Pk.int 3 :: [Pk.int 1, Pk.int 2]) = .ok (none, [])) :=
  ⟨rfl, c8_read_run_behaviour [] [Pk.int 1, Pk.int 2] 3 rfl⟩

/-- Claim C9: the round-robin append-vs-overwrite arithmetic keeps each area
accumulating runs strictly in assignment order.  After any prefix of the
input, the generation state is exactly `mkGen` of the runs flushed so far:
even-position runs on the first tape and odd-position runs on the second,
each in flush order, with the unflushed partial block in the buffer.
Likewise, after any sequence of runs written by a merge pass the output
state is exactly `mkDist` of those runs.  No write overwrites or reorders a
previously written run. -/
theorem c9_round_robin_invariant (m : Nat) (hm : 1 ≤ m) :
    (∀ p : List Int, p.foldl (genStep m) genInit
        = mkGen ((fullChunksOf m p).map pysort) (remOf m p)) ∧
    (∀ R : List (List Int), R.foldl emit dInit = mkDist R) := by
  constructor
  · intro p
    have hgi : genInit = mkGen [] [] := rfl
    have h := foldl_genStep m hm p [] [] (by simpa using hm)
    rw [hgi, h]
    simp
  · intro R
    have hdi : dInit = mkDist [] := rfl
    rw [hdi, foldl_emit R []]
    simp

theorem c9_round_robin_witness :
    1 ≤ 2 ∧
    ((∀ p : List Int, p.foldl (genStep 2) genInit
        = mkGen ((fullChunksOf 2 p).map pysort) (remOf 2 p)) ∧
      (∀ R : List (List Int), R.foldl emit dInit = mkDist R)) :=
  ⟨by decide, c9_round_robin_invariant 2 (by decide)⟩

/-- Claim C10: because heap entries are `(value, source index)` pairs ordered
lexicographically, equal values are always emitted in ascending order of
their source chunk index: in the tagged emission sequence, whenever an entry
precedes another with the same value, its source index is not larger. -/
theorem c10_tie_break_by_source (chunks : List (List Int))
    (hs : ∀ c ∈ chunks, c.Sorted (· ≤ ·)) :
    (merge_chunks_tagged chunks).map Prod.fst = merge_chunks chunks ∧
    (merge_chunks_tagged chunks).Pairwise (fun p q => p.1 = q.1 → p.2 ≤ q.2) := by
  refine ⟨rfl, ?_⟩
  exact ((merge_chunks_spec chunks hs).2).imp
    (fun h heq => by unfold lexLe at h; omega)

theorem c10_tie_break_witness :
    (∀ c ∈ ([[7], [7]] : List (List Int)), c.Sorted (· ≤ ·)) ∧
    ((merge_chunks_tagged [[7], [7]]).map Prod.fst = merge_chunks [[7], [7]] ∧
      (merge_chunks_tagged [[7], [7]]).Pairwise
        (fun p q => p.1 = q.1 → p.2 ≤ q.2)) :=
  ⟨by decide, c10_tie_break_by_source [[7], [7]] (by decide)⟩

end ExtSort

